import Mathlib

/-!
# utahfs `persistent` package: WAL-backed reliable storage, block adapter, encryption

A shallow embedding of `persistent/local_wal.go`, `persistent/block_storage.go`
and `persistent/encryption.go`, followed by theorems about the embedded code.

Conventions
* byte strings are lists of naturals, a `nil` slice and an empty slice are both `[]`;
* a Go `map` is an association list with distinct keys, the list order standing
  for one of the iteration orders the runtime may choose;
* the SQLite table `wal` is the list of its rows in rowid order together with a
  script of outcomes for the statements still to be executed on the handle,
  so that every `if err != nil` branch of the source can be reached;
* goroutine scheduling inside `drainOnce` is a `Schedule` value.
-/

namespace Persistent

/-! ## Data model -/

abbrev Bytes := List Nat

/-- Source `type DataType int`: a tag passed through to the object store. -/
abbrev DataType := Int

/-- Go `error` values that the code compares by identity, plus all others. -/
inductive Error where
  | ErrObjectNotFound
  | ErrNoRows
  | other (msg : String)
deriving DecidableEq, Repr

/-- Source `WriteData{Data, Type}`; the field `Type` is spelled `Typ`. -/
structure WriteData where
  Data : Bytes
  Typ : DataType
deriving DecidableEq, Repr

/-- One row of `wal (id integer not null primary key, key text, val bytea, dt integer)`. -/
structure WalRow where
  id : Int
  key : String
  val : Bytes
  dt : DataType
deriving DecidableEq, Repr

/-- The handle `lw.local`: the rows of table `wal` and the outcomes of the
statements that will be run next (`none`, or an exhausted script, is success). -/
structure LocalDB where
  rows : List WalRow
  script : List (Option Error)
deriving DecidableEq, Repr

/-- Run one statement on the handle: consume the next scripted outcome. -/
def LocalDB.call (db : LocalDB) : Option Error × LocalDB :=
  match db.script with
  | [] => (none, db)
  | o :: rest => (o, { db with script := rest })

/-- No statement on this script fails. -/
def NoFaults (script : List (Option Error)) : Prop := ∀ o ∈ script, o = none

/-! ### Go maps as association lists -/

/-- Source `m[k]` with the comma-ok idiom. -/
def mapGet? {K V : Type} [DecidableEq K] : List (K × V) → K → Option V
  | [], _ => none
  | (k', v) :: rest, k => if k' = k then some v else mapGet? rest k

/-- Source `m[k] = v`: overwrite the entry of `k` or add one. -/
def mapSet {K V : Type} [DecidableEq K] : List (K × V) → K → V → List (K × V)
  | [], k, v => [(k, v)]
  | (k', v') :: rest, k, v => if k' = k then (k, v) :: rest else (k', v') :: mapSet rest k v

/-! ### The remote object store -/

/-- A remote call issued through the `ObjectStorage` interface. -/
inductive RemoteOp where
  | Set (key : String) (val : Bytes) (dt : DataType)
  | Delete (key : String)
deriving DecidableEq, Repr

/-- Modelled from the spec: the `ObjectStorage` interface (`Get`, `Set(key, value,
dataType)`, `Delete` over a key to bytes store with occasional failures), which the
source consumes but does not define. `data` is the stored content, `script` the
outcomes of the coming `Set`/`Delete` calls, `log` the calls issued so far. A failed
call leaves `data` as it was. -/
structure ObjStore where
  data : String → Option (Bytes × DataType)
  script : List (Option Error)
  log : List RemoteOp

def ObjStore.Get (s : ObjStore) (key : String) : Except Error Bytes :=
  match s.data key with
  | some (v, _) => .ok v
  | none => .error Error.ErrObjectNotFound

def ObjStore.Set (s : ObjStore) (key : String) (val : Bytes) (dt : DataType) :
    Option Error × ObjStore :=
  match s.script with
  | some err :: rest => (some err, { s with script := rest, log := s.log ++ [.Set key val dt] })
  | _ => (none, { data := fun k => if k = key then some (val, dt) else s.data k,
                  script := s.script.tail, log := s.log ++ [.Set key val dt] })

def ObjStore.Delete (s : ObjStore) (key : String) : Option Error × ObjStore :=
  match s.script with
  | some err :: rest => (some err, { s with script := rest, log := s.log ++ [.Delete key] })
  | _ => (none, { data := fun k => if k = key then none else s.data k,
                  script := s.script.tail, log := s.log ++ [.Delete key] })

/-! ## `local_wal.go` -/

/-- Source `DELETE FROM wal WHERE key = ?`. -/
def execDeleteKey (rows : List WalRow) (key : String) : List WalRow :=
  rows.filter (fun r => decide (r.key ≠ key))

/-- Largest rowid in use. -/
def maxId : List WalRow → Option Int
  | [] => none
  | r :: rs =>
    match maxId rs with
    | none => some r.id
    | some m => some (max r.id m)

/-- The rowid SQLite gives to an insert that names no id, for a column declared
`integer primary key` without `AUTOINCREMENT`: one more than the largest rowid in
use, and 1 in an empty table. (The random probing SQLite does once the largest
rowid is 2^63-1 is not modelled.) -/
def nextId (rows : List WalRow) : Int :=
  match maxId rows with
  | none => 1
  | some m => m + 1

/-- Source `INSERT INTO wal (key, val, dt) VALUES (?, ?, ?)`. -/
def execInsert (rows : List WalRow) (key : String) (val : Bytes) (dt : DataType) :
    List WalRow :=
  rows ++ [{ id := nextId rows, key := key, val := val, dt := dt }]

/-- The `for key, wr := range writes` loop of `Commit`, running inside the
transaction `tx`; `orig` is the content `tx.Rollback()` restores. -/
def commitLoop (orig : List WalRow) : List (String × WriteData) → LocalDB → LocalDB × Option Error
  | [], tx => (tx, none)
  | (key, wr) :: rest, tx =>
    match tx.call with
    | (some err, tx1) => ({ tx1 with rows := orig }, some err)
    | (none, tx1) =>
      let tx2 : LocalDB := { tx1 with rows := execDeleteKey tx1.rows key }
      match tx2.call with
      | (some err, tx3) => ({ tx3 with rows := orig }, some err)
      | (none, tx3) =>
        commitLoop orig rest { tx3 with rows := execInsert tx3.rows key wr.Data wr.Typ }

/-- Source `localWAL.Commit`. The statements are `Begin`, the two `Prepare`s, one
`DELETE` and one `INSERT` per write, and `tx.Commit`; a failure of any of them
leaves the table as it was. -/
def Commit (db : LocalDB) (writes : List (String × WriteData)) : LocalDB × Option Error :=
  if writes.length = 0 then (db, none)
  else
    match db.call with
    | (some err, db1) => (db1, some err)
    | (none, db1) =>
      match db1.call with
      | (some err, db2) => (db2, some err)
      | (none, db2) =>
        match db2.call with
        | (some err, db3) => (db3, some err)
        | (none, db3) =>
          match commitLoop db.rows writes db3 with
          | (tx, some err) => (tx, some err)
          | (tx, none) =>
            match tx.call with
            | (some err, tx1) => ({ tx1 with rows := db.rows }, some err)
            | (none, tx1) => (tx1, none)

/-- Source `lw.local.QueryRow("SELECT val FROM wal WHERE key = ?;", key).Scan(&val)`:
the value left in `val` and the error returned. When the statement fails `val`
keeps its zero value. -/
def QueryRowScan (db : LocalDB) (key : String) : (Bytes × Option Error) × LocalDB :=
  match db.call with
  | (some err, db1) => (([], some err), db1)
  | (none, db1) =>
    match db1.rows.find? (fun r => decide (r.key = key)) with
    | some r => ((r.val, none), db1)
    | none => (([], some Error.ErrNoRows), db1)

/-- Source `localWAL.Get`. -/
def Get (db : LocalDB) (base : ObjStore) (key : String) : Except Error Bytes × LocalDB :=
  match QueryRowScan db key with
  | ((val, err), db1) =>
    if err = some Error.ErrNoRows then (base.Get key, db1)
    else if val.length = 0 then (.error Error.ErrObjectNotFound, db1)
    else
      match err with
      | some e => (.error e, db1)
      | none => (.ok val, db1)

/-- Source `localWAL.GetMany`, with `out` the map built so far. -/
def GetManyLoop (base : ObjStore) :
    List String → LocalDB → List (String × Bytes) → Except Error (List (String × Bytes)) × LocalDB
  | [], db, out => (.ok out, db)
  | key :: rest, db, out =>
    match Get db base key with
    | (.error err, db1) =>
      if err = Error.ErrObjectNotFound then GetManyLoop base rest db1 out
      else (.error err, db1)
    | (.ok val, db1) => GetManyLoop base rest db1 (mapSet out key val)

def GetMany (db : LocalDB) (base : ObjStore) (keys : List String) :
    Except Error (List (String × Bytes)) × LocalDB :=
  GetManyLoop base keys db []

/-! ### `drainOnce` -/

/-- Source `type walReq struct`. -/
structure walReq where
  key : String
  val : Bytes
  dt : DataType
deriving DecidableEq, Repr

/-- The request `walReq{keys[i], vals[i], dts[i]}` sent for a row. -/
def WalRow.toReq (r : WalRow) : walReq := { key := r.key, val := r.val, dt := r.dt }

/-- The remote call a worker issues for a request. -/
def walReq.toOp (r : walReq) : RemoteOp :=
  if r.val.length > 0 then .Set r.key r.val r.dt else .Delete r.key

/-- The remote call a worker issues for a row. -/
def WalRow.toOp (r : WalRow) : RemoteOp := r.toReq.toOp

/-- What the object store holds for the key of a request once its call succeeded. -/
def walReq.effect (r : walReq) : Option (Bytes × DataType) :=
  if r.val.length > 0 then some (r.val, r.dt) else none

/-- The choices left to the scheduler for one batch: `order` is the order in which
the calls of the worker goroutines take effect on the object store, `arrival` the
order in which their results are received from the channel `errs`. -/
structure Schedule where
  order : List walReq → List walReq
  arrival : List (Option Error) → List (Option Error)

/-- A schedule only reorders: every request is served once, every result received once. -/
def Schedule.Valid (s : Schedule) : Prop :=
  (∀ l, (s.order l).Perm l) ∧ (∀ l, (s.arrival l).Perm l)

/-- Requests served and results received in the order they were sent. -/
def Schedule.fifo : Schedule := { order := fun l => l, arrival := fun l => l }

/-- Requests served in reverse, results received in the order produced. -/
def Schedule.lifo : Schedule := { order := fun l => l.reverse, arrival := fun l => l }

/-- The body of a worker goroutine for one request. -/
def worker (base : ObjStore) (req : walReq) : Option Error × ObjStore :=
  if req.val.length > 0 then base.Set req.key req.val req.dt else base.Delete req.key

/-- The workers serving the requests in the given order; one result per request. -/
def runWorkers : List walReq → ObjStore → List (Option Error) × ObjStore
  | [], base => ([], base)
  | req :: rest, base =>
    match worker base req with
    | (err, base1) =>
      match runWorkers rest base1 with
      | (errs, base2) => (err :: errs, base2)

/-- Source `for range ids { if subErr := <-errs; subErr != nil { err = subErr } }`. -/
def collect (err : Option Error) : List (Option Error) → Option Error
  | [] => err
  | subErr :: rest => collect (if subErr ≠ none then subErr else err) rest

/-- The `for rows.Next() { rows.Scan(...) }` loop over the rows the query yields. -/
def scanRows : List WalRow → LocalDB → List WalRow → Except Error (List WalRow) × LocalDB
  | [], db, acc => (.ok acc, db)
  | r :: rest, db, acc =>
    match db.call with
    | (some err, db1) => (.error err, db1)
    | (none, db1) => scanRows rest db1 (acc ++ [r])

/-- Source `SELECT id, key, val, dt FROM wal LIMIT 100`, the scan loop and `rows.Err()`. -/
def selectBatch (db : LocalDB) : Except Error (List WalRow) × LocalDB :=
  match db.call with
  | (some err, db1) => (.error err, db1)
  | (none, db1) =>
    match scanRows (db1.rows.take 100) db1 [] with
    | (.error err, db2) => (.error err, db2)
    | (.ok batch, db2) =>
      match db2.call with
      | (some err, db3) => (.error err, db3)
      | (none, db3) => (.ok batch, db3)

/-- Source `DELETE FROM wal WHERE id in (...)`. -/
def execDeleteIds (rows : List WalRow) (ids : List Int) : List WalRow :=
  rows.filter (fun r => decide (r.id ∉ ids))

/-- How an invocation of `drainOnce` ends: it returns `err`, or it stays blocked on
`<-errs` because no worker goroutine exists to answer. -/
inductive DrainResult where
  | returned (err : Option Error)
  | blocked
deriving DecidableEq, Repr

/-- The `for` loop of `drainOnce`, at most `fuel` iterations. -/
def drainLoop (parallelism : Int) (s : Schedule) :
    Nat → LocalDB → ObjStore → Option (DrainResult × LocalDB × ObjStore)
  | 0, _, _ => none
  | fuel + 1, db, base =>
    match selectBatch db with
    | (.error err, db1) => some (.returned (some err), db1, base)
    | (.ok batch, db1) =>
      if batch.length = 0 then some (.returned none, db1, base)
      else if parallelism ≤ 0 then some (.blocked, db1, base)
      else
        match runWorkers (s.order (batch.map WalRow.toReq)) base with
        | (results, base1) =>
          match collect none (s.arrival results) with
          | some err => some (.returned (some err), db1, base1)
          | none =>
            match db1.call with
            | (some err, db2) => some (.returned (some err), db2, base1)
            | (none, db2) =>
              drainLoop parallelism s fuel
                { db2 with rows := execDeleteIds db2.rows (batch.map (fun r => r.id)) } base1

/-- Source `localWAL.drainOnce`. Every iteration that continues removes a row, so one
more iteration than there are rows is enough. -/
def drainOnce (parallelism : Int) (s : Schedule) (db : LocalDB) (base : ObjStore) :
    Option (DrainResult × LocalDB × ObjStore) :=
  drainLoop parallelism s (db.rows.length + 1) db base

/-! ### Histories of a WAL -/

/-- A call made on the WAL: a `Commit` of a batch, or a pass of `drainOnce`. -/
inductive Event where
  | commit (writes : List (String × WriteData))
  | drain (parallelism : Int) (s : Schedule)

/-- The state after one call. A `Commit` may succeed or fail, a pass may return `nil`,
return an error or stay blocked, as the scripts of the two stores decide. -/
def step (st : LocalDB × ObjStore) : Event → LocalDB × ObjStore
  | .commit writes => ((Commit st.1 writes).1, st.2)
  | .drain parallelism s =>
    match drainOnce parallelism s st.1 st.2 with
    | some (_, db, base) => (db, base)
    | none => st

/-- The state after a sequence of calls. -/
def run (st : LocalDB × ObjStore) (evs : List Event) : LocalDB × ObjStore :=
  evs.foldl step st

/-! ### A pass of `drainOnce` interleaved with `Commit` -/

/-- Where a pass of `drainOnce` stands inside an iteration of its loop. -/
inductive Pass where
  | idle
  | read (batch : List WalRow)
  | written (batch : List WalRow)
deriving DecidableEq, Repr

/-- The atomic steps of a run: a whole `Commit` transaction, or one of the three
stages of an iteration of `drainOnce` (the stages are separate statements on the
database handle, not one transaction). -/
inductive Action where
  | commit (writes : List (String × WriteData))
  | drainSelect
  | drainWrite (s : Schedule)
  | drainDelete

structure World where
  db : LocalDB
  base : ObjStore
  pass : Pass

/-- One atomic step. The stages of the pass are those of `drainLoop`: `selectBatch`,
then `runWorkers` and `collect`, then the `DELETE` by id. -/
def act (w : World) : Action → World
  | .commit writes => { w with db := (Commit w.db writes).1 }
  | .drainSelect =>
    match w.pass with
    | .idle =>
      match selectBatch w.db with
      | (.ok batch, db1) =>
        if batch.length = 0 then { w with db := db1 } else { w with db := db1, pass := .read batch }
      | (.error _, db1) => { w with db := db1 }
    | _ => w
  | .drainWrite s =>
    match w.pass with
    | .read batch =>
      match runWorkers (s.order (batch.map WalRow.toReq)) w.base with
      | (results, base1) =>
        match collect none (s.arrival results) with
        | some _ => { w with base := base1, pass := .idle }
        | none => { w with base := base1, pass := .written batch }
    | _ => w
  | .drainDelete =>
    match w.pass with
    | .written batch =>
      match w.db.call with
      | (some _, db1) => { w with db := db1, pass := .idle }
      | (none, db1) =>
        { w with db := { db1 with rows := execDeleteIds db1.rows (batch.map (fun r => r.id)) },
                 pass := .idle }
    | _ => w

/-- The world after a sequence of atomic steps. -/
def interleave (w : World) (as : List Action) : World := as.foldl act w

/-- An empty WAL in front of an empty object store, nothing failing. -/
def World.empty : World :=
  { db := { rows := [], script := [] }, base := { data := fun _ => none, script := [], log := [] },
    pass := .idle }

/-! ## `block_storage.go` -/

/-- The digit table of `fmt` for the lower-case verbs. -/
def ldigits : List Char :=
  ['0', '1', '2', '3', '4', '5', '6', '7', '8', '9', 'a', 'b', 'c', 'd', 'e', 'f']

def hexDigit (d : Nat) : Char := ldigits.getD d '0'

/-- The base 16 loop of `fmt`: while `u >= 16` the digit of `u % 16` is put in front
of what is already written and `u` is divided by 16; the last digit is that of `u`. -/
def fmtHex : Nat → Nat → List Char → List Char
  | 0, u, acc => hexDigit u :: acc
  | fuel + 1, u, acc =>
    if 16 ≤ u then fmtHex fuel (u / 16) (hexDigit (u % 16) :: acc) else hexDigit u :: acc

/-- Source `fmt.Sprintf("%x", ptr)` for a `uint64`: at most 15 turns of the loop. -/
def hex (ptr : Nat) : String := String.mk (fmtHex 15 ptr [])

/-- Source `[]byte(fmt.Sprintf("%x", ptr))`. -/
def hexBytes (ptr : Nat) : Bytes := (hex ptr).data.map Char.toNat

/-- The first loop of `simpleBlock.GetMany`: the keys in request order and the map
`conversion` from key to pointer. -/
def conversionLoop : List Nat → List String → List (String × Nat) → List String × List (String × Nat)
  | [], keys, conversion => (keys, conversion)
  | ptr :: rest, keys, conversion =>
    conversionLoop rest (keys ++ [hex ptr]) (mapSet conversion (hex ptr) ptr)

/-- The second loop of `simpleBlock.GetMany`, over the entries of `data`. -/
def convertLoop (conversion : List (String × Nat)) :
    List (String × Bytes) → List (Nat × Bytes) → Except Error (List (Nat × Bytes))
  | [], out => .ok out
  | (key, val) :: rest, out =>
    match mapGet? conversion key with
    | none => .error (Error.other "given value for unexpected key")
    | some ptr => convertLoop conversion rest (mapSet out ptr val)

/-- Source `simpleBlock.GetMany`, with `baseGetMany` standing for `sb.base.GetMany(ctx, ·)`. -/
def simpleBlock.GetMany (baseGetMany : List String → Except Error (List (String × Bytes)))
    (ptrs : List Nat) : Except Error (List (Nat × Bytes)) :=
  match conversionLoop ptrs [] [] with
  | (keys, conversion) =>
    match baseGetMany keys with
    | .error err => .error err
    | .ok data => convertLoop conversion data []

/-- Source `type blockMemory map[uint64][]byte`. -/
abbrev blockMemory := List (Nat × Bytes)

def blockMemory.Get (bm : blockMemory) (ptr : Nat) : Except Error Bytes :=
  match mapGet? bm ptr with
  | none => .error Error.ErrObjectNotFound
  | some d => .ok d

def blockMemory.Set (bm : blockMemory) (ptr : Nat) (data : Bytes) : Option Error × blockMemory :=
  (none, mapSet bm ptr data)

/-! ## `encryption.go` -/

/-- The methods of `cipher.AEAD` the wrapper uses, called with `dst = nil`:
`Seal nonce plaintext additionalData` and `Open nonce ciphertext additionalData`. -/
structure AEAD where
  NonceSize : Nat
  Seal : Bytes → Bytes → Bytes → Bytes
  Open : Bytes → Bytes → Bytes → Except Error Bytes

/-- The methods of the `BlockStorage` interface the wrapper uses, over a state `σ`. -/
structure BlockStorage (σ : Type) where
  Get : σ → Nat → Except Error Bytes
  Set : σ → Nat → Bytes → Option Error × σ

/-- Source `nonce := make([]byte, n); rand.Read(nonce)`: the buffer of `n` zero bytes
overwritten with the bytes the source delivers. -/
def readNonce (rnd : Except Error Bytes) (n : Nat) : Except Error Bytes :=
  match rnd with
  | .error err => .error err
  | .ok bs => .ok ((bs ++ List.replicate n 0).take n)

/-- Source `encryption.Get`. -/
def encryption.Get {σ : Type} (base : BlockStorage σ) (aead : AEAD) (st : σ) (ptr : Nat) :
    Except Error Bytes :=
  match base.Get st ptr with
  | .error err => .error err
  | .ok raw =>
    if raw.length < aead.NonceSize then .error (Error.other "storage: ciphertext is too small")
    else aead.Open (raw.take aead.NonceSize) (raw.drop aead.NonceSize) (hexBytes ptr)

/-- Source `encryption.Set`, with `rnd` the outcome of `rand.Read`. -/
def encryption.Set {σ : Type} (base : BlockStorage σ) (aead : AEAD) (rnd : Except Error Bytes)
    (st : σ) (ptr : Nat) (data : Bytes) : Option Error × σ :=
  match readNonce rnd aead.NonceSize with
  | .error err => (some err, st)
  | .ok nonce => base.Set st ptr (nonce ++ aead.Seal nonce data (hexBytes ptr))

/-- The in-memory store of `block_storage.go` as a `BlockStorage`. -/
def blockMemory.storage : BlockStorage blockMemory :=
  { Get := blockMemory.Get, Set := blockMemory.Set }

/-- A toy AEAD for examples: the sealed text is the nonce, the additional data and
the plaintext in a row, and `Open` checks the first two. -/
def toyAEAD : AEAD :=
  { NonceSize := 2
    Seal := fun nonce plaintext ad => nonce ++ ad ++ plaintext
    Open := fun nonce ct ad =>
      if ct.take (nonce.length + ad.length) = nonce ++ ad then
        .ok (ct.drop (nonce.length + ad.length))
      else .error (Error.other "cipher: message authentication failed") }

/-! ### `count` and `Start` -/

/-- Instants and durations in nanoseconds. -/
abbrev Time := Int

/-- Source `10 * time.Second`. -/
def tenSeconds : Int := 10 * 1000000000

/-- Source `time.Time{}`, the value `NewLocalWAL` gives to `lastCount`: 1 January of year 1. -/
def zeroTime : Time := -62135596800 * 1000000000

/-- Source `time.Since(last)` read at the instant `now`; a `Duration` is an `int64` and the
subtraction saturates. -/
def since (now last : Time) : Int := max (-(2 ^ 63)) (min (2 ^ 63 - 1) (now - last))

/-- The fields of `type localWAL struct` that `count` and `Start` use. -/
structure localWAL where
  maxSize : Int
  currSize : Int
  lastCount : Time
deriving DecidableEq, Repr

/-- Source `localWAL.count`, with `now` the instant at which `time.Since` is evaluated and
`later` the instant `time.Now()` returns after the query. The gauge update has no
effect on the result and is left out. -/
def count (lw : localWAL) (db : LocalDB) (now later : Time) :
    Except Error Int × localWAL × LocalDB :=
  if since now lw.lastCount < tenSeconds then (.ok lw.currSize, lw, db)
  else
    match db.call with
    | (some err, db1) => (.error err, lw, db1)
    | (none, db1) =>
      (.ok (db1.rows.length : Int),
        { lw with lastCount := later, currSize := (db1.rows.length : Int) }, db1)

/-- The state `Start` works on. -/
structure WalState where
  lw : localWAL
  db : LocalDB
  base : ObjStore

/-- The case of the `select` statement that fires when an iteration has to wait. -/
inductive Select where
  | done (err : Error)
  | wake
  | tick

/-- What surrounds one iteration of the loop of `Start`: what the other goroutines
(the drainer, the periodic counter, other sessions) did to the state since the
previous iteration, the two clock readings of `count`, and the `select` case. -/
structure Round where
  interfere : WalState → WalState
  now : Time
  later : Time
  sel : Select

/-- Source `localWAL.Start` over the rounds given; `none` as result means that the call is
still inside its loop when the rounds are used up. -/
def Start (prefetch : List String) :
    List Round → WalState → Option (Except Error (List (String × Bytes))) × WalState
  | [], st => (none, st)
  | r :: rest, st =>
    match count (r.interfere st).lw (r.interfere st).db r.now r.later with
    | (.error err, lw1, db1) => (some (.error err), { r.interfere st with lw := lw1, db := db1 })
    | (.ok c, lw1, db1) =>
      if c > (r.interfere st).lw.maxSize then
        match r.sel with
        | .done err => (some (.error err), { r.interfere st with lw := lw1, db := db1 })
        | _ => Start prefetch rest { r.interfere st with lw := lw1, db := db1 }
      else
        match GetMany db1 (r.interfere st).base prefetch with
        | (res, db2) => (some res, { r.interfere st with lw := lw1, db := db2 })

/-! ## Specification vocabulary and example states -/

/-- What the transaction of `Commit` does to the rows when no statement fails. -/
def applyWrites (rows : List WalRow) : List (String × WriteData) → List WalRow
  | [] => rows
  | (key, wr) :: rest =>
    applyWrites (execInsert (execDeleteKey rows key) key wr.Data wr.Typ) rest

/-- Each key occurs in at most one row. -/
def KeyUnique (rows : List WalRow) : Prop := (rows.map (fun r => r.key)).Nodup

/-- The rows holding `key`. -/
def rowsOf (rows : List WalRow) (key : String) : List WalRow :=
  rows.filter (fun r => decide (r.key = key))

/-- The value of a hexadecimal digit. -/
def digitVal (c : Char) : Nat := ldigits.indexOf c

/-- The number a string of hexadecimal digits denotes. -/
def hexVal (cs : List Char) : Nat := cs.foldl (fun v c => v * 16 + digitVal c) 0

/-- The number `count` reports at the instant `now`: the cached size while the cache
is less than ten seconds old, the number of rows otherwise. -/
def reportedCount (st : WalState) (now : Time) : Int :=
  if since now st.lw.lastCount < tenSeconds then st.lw.currSize else (st.db.rows.length : Int)

/-- A WAL with `maxSize = 1` that holds three rows and has never been counted. -/
def fullState : WalState :=
  { lw := { maxSize := 1, currSize := 0, lastCount := zeroTime }
    db := { rows := [⟨1, "a", [1], 0⟩, ⟨2, "b", [2], 0⟩, ⟨3, "c", [3], 0⟩], script := [] }
    base := { data := fun _ => none, script := [], log := [] } }

/-- A freshly opened WAL with `maxSize = 1`: empty table, `lastCount` the zero time. -/
def freshState : WalState :=
  { lw := { maxSize := 1, currSize := 0, lastCount := zeroTime }
    db := { rows := [], script := [] }
    base := { data := fun _ => none, script := [], log := [] } }

/-- The drainer emptied the table between two iterations. -/
def drained (st : WalState) : WalState := { st with db := { st.db with rows := [] } }

/-- One iteration at `secs` seconds with nothing happening before it. -/
def quietRound (secs : Int) (sel : Select) : Round :=
  { interfere := fun st => st, now := secs * 1000000000, later := secs * 1000000000, sel := sel }

/-- The world in which a pass has read and written the batch `[row 1]` of key `a`
and a second `Commit` for `a` has run before the `DELETE` of the pass. -/
def raceBefore : World :=
  interleave World.empty
    [.commit [("a", ⟨[1], 0⟩)], .drainSelect, .drainWrite Schedule.fifo, .commit [("a", ⟨[2], 0⟩)]]

/-- An empty WAL after `Commit({a: [1]})`. -/
def reuseCommitted : LocalDB × ObjStore :=
  run (World.empty.db, World.empty.base) [.commit [("a", ⟨[1], 0⟩)]]

/-- The state after a first session called `Start` at second 100 on a fresh WAL and
committed three rows. -/
def secondSession : WalState :=
  { (Start [] [quietRound 100 .tick] freshState).2 with
    db := (Commit (Start [] [quietRound 100 .tick] freshState).2.db
      [("a", ⟨[1], 0⟩), ("b", ⟨[2], 0⟩), ("c", ⟨[3], 0⟩)]).1 }

/-- An empty WAL whose handle runs the six statements of a one-row `Commit`
without failure and then fails the next statement with "database is locked". -/
def lockedAfterCommit : LocalDB :=
  { rows := []
    script := [none, none, none, none, none, none, some (Error.other "database is locked")] }

/-! # Verification -/

/-! ## Lemmas about `Commit` and `Get` -/

theorem call_rows (db : LocalDB) : db.call.2.rows = db.rows := by
  unfold LocalDB.call
  cases db.script <;> rfl

theorem call_eq_rows {db db1 : LocalDB} {o : Option Error} (h : db.call = (o, db1)) :
    db1.rows = db.rows := by
  have := call_rows db
  rw [h] at this
  exact this

theorem commitLoop_rows (orig : List WalRow) (ws : List (String × WriteData)) :
    ∀ (tx tx' : LocalDB) (r : Option Error), commitLoop orig ws tx = (tx', r) →
      (r = none → tx'.rows = applyWrites tx.rows ws) ∧ (r ≠ none → tx'.rows = orig) := by
  induction ws with
  | nil =>
    intro tx tx' r h
    simp only [commitLoop, Prod.mk.injEq] at h
    obtain ⟨rfl, rfl⟩ := h
    simp [applyWrites]
  | cons w rest ih =>
    obtain ⟨key, wr⟩ := w
    intro tx tx' r h
    rw [commitLoop] at h
    rcases h1 : tx.call with ⟨o1, tx1⟩
    rw [h1] at h
    cases o1 with
    | some e1 =>
      simp only [Prod.mk.injEq] at h
      obtain ⟨rfl, rfl⟩ := h
      simp
    | none =>
      simp only at h
      rcases h2 : LocalDB.call { tx1 with rows := execDeleteKey tx1.rows key } with ⟨o2, tx3⟩
      rw [h2] at h
      cases o2 with
      | some e2 =>
        simp only [Prod.mk.injEq] at h
        obtain ⟨rfl, rfl⟩ := h
        simp
      | none =>
        simp only at h
        have h3 := ih _ _ _ h
        have e1 : tx1.rows = tx.rows := call_eq_rows h1
        have e3 : tx3.rows = execDeleteKey tx1.rows key := call_eq_rows h2
        refine ⟨fun hr => ?_, h3.2⟩
        rw [h3.1 hr, applyWrites]
        simp only [e3, e1]

theorem Commit_rows (db db' : LocalDB) (ws : List (String × WriteData)) (r : Option Error)
    (h : Commit db ws = (db', r)) :
    (r = none → db'.rows = applyWrites db.rows ws) ∧ (r ≠ none → db'.rows = db.rows) := by
  unfold Commit at h
  split at h
  · rename_i hlen
    simp only [Prod.mk.injEq] at h
    obtain ⟨rfl, rfl⟩ := h
    have : ws = [] := List.length_eq_zero.mp hlen
    subst this
    simp [applyWrites]
  · rcases h1 : db.call with ⟨o1, db1⟩
    rw [h1] at h
    cases o1 with
    | some e =>
      simp only [Prod.mk.injEq] at h
      obtain ⟨rfl, rfl⟩ := h
      simp [call_eq_rows h1]
    | none =>
      simp only at h
      rcases h2 : db1.call with ⟨o2, db2⟩
      rw [h2] at h
      cases o2 with
      | some e =>
        simp only [Prod.mk.injEq] at h
        obtain ⟨rfl, rfl⟩ := h
        simp [call_eq_rows h1, call_eq_rows h2]
      | none =>
        simp only at h
        rcases h3 : db2.call with ⟨o3, db3⟩
        rw [h3] at h
        cases o3 with
        | some e =>
          simp only [Prod.mk.injEq] at h
          obtain ⟨rfl, rfl⟩ := h
          simp [call_eq_rows h1, call_eq_rows h2, call_eq_rows h3]
        | none =>
          simp only at h
          rcases h4 : commitLoop db.rows ws db3 with ⟨tx, o4⟩
          rw [h4] at h
          have hl := commitLoop_rows _ _ _ _ _ h4
          cases o4 with
          | some e =>
            simp only [Prod.mk.injEq] at h
            obtain ⟨rfl, rfl⟩ := h
            simp [hl.2]
          | none =>
            simp only at h
            rcases h5 : tx.call with ⟨o5, tx1⟩
            rw [h5] at h
            cases o5 with
            | some e =>
              simp only [Prod.mk.injEq] at h
              obtain ⟨rfl, rfl⟩ := h
              simp
            | none =>
              simp only [Prod.mk.injEq] at h
              obtain ⟨rfl, rfl⟩ := h
              refine ⟨fun _ => ?_, fun hne => absurd rfl hne⟩
              rw [call_eq_rows h5, hl.1 rfl, call_eq_rows h3, call_eq_rows h2, call_eq_rows h1]

theorem rowsOf_append (a b : List WalRow) (k : String) :
    rowsOf (a ++ b) k = rowsOf a k ++ rowsOf b k := by
  simp [rowsOf]

theorem rowsOf_execDeleteKey_self (rows : List WalRow) (k : String) :
    rowsOf (execDeleteKey rows k) k = [] := by
  simp only [rowsOf, execDeleteKey, List.filter_filter, List.filter_eq_nil_iff]
  intro r _
  by_cases h : r.key = k <;> simp [h]

theorem rowsOf_execDeleteKey_ne (rows : List WalRow) {k k' : String} (h : k' ≠ k) :
    rowsOf (execDeleteKey rows k') k = rowsOf rows k := by
  simp only [rowsOf, execDeleteKey, List.filter_filter]
  congr 1
  funext r
  by_cases h1 : r.key = k
  · have : r.key ≠ k' := fun h2 => h (h2.symm.trans h1)
    simp [h1, Ne.symm h]
  · simp [h1]

theorem rowsOf_step_self (rows : List WalRow) (k : String) (v : Bytes) (dt : DataType) :
    rowsOf (execInsert (execDeleteKey rows k) k v dt) k =
      [{ id := nextId (execDeleteKey rows k), key := k, val := v, dt := dt }] := by
  rw [execInsert, rowsOf_append, rowsOf_execDeleteKey_self]
  simp [rowsOf]

theorem rowsOf_step_ne (rows : List WalRow) {k k' : String} (h : k' ≠ k) (v : Bytes)
    (dt : DataType) :
    rowsOf (execInsert (execDeleteKey rows k') k' v dt) k = rowsOf rows k := by
  rw [execInsert, rowsOf_append, rowsOf_execDeleteKey_ne rows h]
  simp [rowsOf, h]

theorem rowsOf_applyWrites_other (ws : List (String × WriteData)) :
    ∀ (rows : List WalRow) (k : String), k ∉ ws.map Prod.fst →
      rowsOf (applyWrites rows ws) k = rowsOf rows k := by
  induction ws with
  | nil => intro rows k _; rfl
  | cons w rest ih =>
    obtain ⟨k', wr⟩ := w
    intro rows k hk
    simp only [List.map_cons, List.mem_cons, not_or] at hk
    rw [applyWrites, ih _ _ hk.2, rowsOf_step_ne rows (Ne.symm hk.1)]

theorem rowsOf_applyWrites_mem (ws : List (String × WriteData)) :
    ∀ (rows : List WalRow) (k : String) (wr : WriteData), (ws.map Prod.fst).Nodup →
      (k, wr) ∈ ws →
      ∃ id, rowsOf (applyWrites rows ws) k = [{ id := id, key := k, val := wr.Data, dt := wr.Typ }] := by
  induction ws with
  | nil => intro rows k wr _ h; simp at h
  | cons w rest ih =>
    obtain ⟨k', wr'⟩ := w
    intro rows k wr hnd hmem
    simp only [List.map_cons, List.nodup_cons] at hnd
    rw [applyWrites]
    rcases List.mem_cons.mp hmem with heq | hin
    · simp only [Prod.mk.injEq] at heq
      obtain ⟨rfl, rfl⟩ := heq
      exact ⟨_, by rw [rowsOf_applyWrites_other rest _ _ hnd.1, rowsOf_step_self]⟩
    · exact ih _ k wr hnd.2 hin

theorem find?_eq_head?_rowsOf (rows : List WalRow) (k : String) :
    rows.find? (fun r => decide (r.key = k)) = (rowsOf rows k).head? := by
  induction rows with
  | nil => rfl
  | cons r rs ih =>
    by_cases h : r.key = k
    · simp [rowsOf, h]
    · have hf : rowsOf (r :: rs) k = rowsOf rs k := by simp [rowsOf, h]
      rw [hf, ← ih]
      simp [h]

/-- Behaviour of `Get` when the `SELECT` itself does not fail. -/
theorem Get_of_call_ok (db : LocalDB) (base : ObjStore) (k : String)
    (hq : db.call.1 = none) :
    (Get db base k).1 =
      match (rowsOf db.rows k).head? with
      | some r => if r.val.length = 0 then .error Error.ErrObjectNotFound else .ok r.val
      | none => base.Get k := by
  unfold Get QueryRowScan
  rcases h1 : db.call with ⟨o, db1⟩
  rw [h1] at hq
  simp only at hq
  subst hq
  simp only
  rw [call_eq_rows h1, find?_eq_head?_rowsOf]
  cases h2 : (rowsOf db.rows k).head? with
  | none =>
    dsimp only
    rw [if_pos rfl]
  | some r =>
    dsimp only
    rw [if_neg (by intro h; cases h)]
    by_cases h3 : r.val.length = 0
    · rw [if_pos h3, if_pos h3]
    · rw [if_neg h3, if_neg h3]

/-! ## Read-your-writes -/

/-- C1, the claim as stated fails. `Commit({k: [7]})` on an empty WAL returns no error
and leaves the row `(1, k, [7])`; the `SELECT` of the `Get` that follows fails with
"database is locked", and `Get(k)` returns `ErrObjectNotFound` although the committed
data `[7]` is not empty; it does not return `[7]`. -/
theorem Commit_then_Get_select_fails :
    (Commit lockedAfterCommit [("k", ⟨[7], 0⟩)]).2 = none ∧
    (Commit lockedAfterCommit [("k", ⟨[7], 0⟩)]).1.rows = [⟨1, "k", [7], 0⟩] ∧
    (Get (Commit lockedAfterCommit [("k", ⟨[7], 0⟩)]).1 ⟨fun _ => some ([9], 0), [], []⟩ "k").1
      = .error Error.ErrObjectNotFound ∧
    (Get (Commit lockedAfterCommit [("k", ⟨[7], 0⟩)]).1 ⟨fun _ => some ([9], 0), [], []⟩ "k").1
      ≠ .ok [7] := by
  refine ⟨by decide, by decide, rfl, ?_⟩
  intro h
  have h2 : (Get (Commit lockedAfterCommit [("k", ⟨[7], 0⟩)]).1
      ⟨fun _ => some ([9], 0), [], []⟩ "k").1 = .error Error.ErrObjectNotFound := rfl
  rw [h2] at h
  cases h

/-- C1 as amended (read-your-writes). If `Commit` of the batch `ws` (a Go map: distinct
keys, any iteration order) returns no error, then a `Get` issued right after it, whose
`SELECT` does not fail, returns for every key of the batch the committed data when it is
non-empty and `ErrObjectNotFound` when it is empty, whatever the table held before and
whatever the object store holds. -/
theorem Commit_then_Get (db db' : LocalDB) (base : ObjStore) (ws : List (String × WriteData))
    (k : String) (wr : WriteData)
    (hmap : (ws.map Prod.fst).Nodup)
    (hcommit : Commit db ws = (db', none))
    (hmem : (k, wr) ∈ ws)
    (hselect : db'.call.1 = none) :
    (Get db' base k).1 =
      if wr.Data.length = 0 then .error Error.ErrObjectNotFound else .ok wr.Data := by
  rw [Get_of_call_ok db' base k hselect, (Commit_rows db db' ws none hcommit).1 rfl]
  obtain ⟨id, hid⟩ := rowsOf_applyWrites_mem ws db.rows k wr hmap hmem
  rw [hid]
  rfl

/-- Witness of C1 as amended: the table holds an older row for `k` and the object
store another value; after the commit `Get` returns the committed data. -/
theorem Commit_then_Get_witness :
    (Get ⟨[⟨1, "k", [7, 8], 2⟩, ⟨2, "d", [], 0⟩], []⟩ ⟨fun _ => some ([9], 0), [], []⟩ "k").1
      = .ok [7, 8] :=
  Commit_then_Get ⟨[⟨1, "k", [1], 0⟩], []⟩ ⟨[⟨1, "k", [7, 8], 2⟩, ⟨2, "d", [], 0⟩], []⟩
    ⟨fun _ => some ([9], 0), [], []⟩ [("k", ⟨[7, 8], 2⟩), ("d", ⟨[], 0⟩)] "k" ⟨[7, 8], 2⟩
    (by decide) (by decide) (by decide) (by decide)

/-! ## Lemmas about `drainOnce` -/

theorem call_noFaults {db : LocalDB} (h : NoFaults db.script) :
    ∃ db1, db.call = (none, db1) ∧ db1.rows = db.rows ∧ NoFaults db1.script := by
  unfold LocalDB.call
  cases hs : db.script with
  | nil => exact ⟨db, rfl, rfl, h⟩
  | cons o rest =>
    rw [hs] at h
    have ho : o = none := h o (List.mem_cons_self _ _)
    subst ho
    exact ⟨_, rfl, rfl, fun o ho => h o (List.mem_cons_of_mem _ ho)⟩

theorem scanRows_noFaults (l : List WalRow) :
    ∀ (db : LocalDB) (acc : List WalRow), NoFaults db.script →
      ∃ db1, scanRows l db acc = (.ok (acc ++ l), db1) ∧ db1.rows = db.rows ∧
        NoFaults db1.script := by
  induction l with
  | nil => intro db acc h; exact ⟨db, by simp [scanRows], rfl, h⟩
  | cons r rest ih =>
    intro db acc h
    obtain ⟨db1, h1, hr1, hn1⟩ := call_noFaults h
    obtain ⟨db2, h2, hr2, hn2⟩ := ih db1 (acc ++ [r]) hn1
    refine ⟨db2, ?_, hr2.trans hr1, hn2⟩
    rw [scanRows, h1]
    simp only [h2, List.append_assoc, List.singleton_append]

theorem selectBatch_noFaults {db : LocalDB} (h : NoFaults db.script) :
    ∃ db1, selectBatch db = (.ok (db.rows.take 100), db1) ∧ db1.rows = db.rows ∧
      NoFaults db1.script := by
  obtain ⟨db1, h1, hr1, hn1⟩ := call_noFaults h
  obtain ⟨db2, h2, hr2, hn2⟩ := scanRows_noFaults (db1.rows.take 100) db1 [] hn1
  obtain ⟨db3, h3, hr3, hn3⟩ := call_noFaults hn2
  refine ⟨db3, ?_, hr3.trans (hr2.trans hr1), hn3⟩
  unfold selectBatch
  rw [h1]
  simp only [h2, h3, List.nil_append]
  rw [hr1]

theorem worker_noFaults (base : ObjStore) (req : walReq) (h : NoFaults base.script) :
    (worker base req).1 = none ∧ NoFaults (worker base req).2.script ∧
      (worker base req).2.log = base.log ++ [req.toOp] ∧
      (worker base req).2.data req.key = req.effect ∧
      ∀ k, k ≠ req.key → (worker base req).2.data k = base.data k := by
  have htail : NoFaults base.script.tail := fun o ho => h o (List.mem_of_mem_tail ho)
  unfold worker walReq.toOp walReq.effect ObjStore.Set ObjStore.Delete
  by_cases hv : req.val.length > 0
  · simp only [hv, if_true]
    cases hs : base.script with
    | nil => simp_all
    | cons o rest =>
      have ho : o = none := h o (by rw [hs]; exact List.mem_cons_self _ _)
      subst ho
      rw [hs] at htail
      simp_all
  · simp only [hv, if_false]
    cases hs : base.script with
    | nil => simp_all
    | cons o rest =>
      have ho : o = none := h o (by rw [hs]; exact List.mem_cons_self _ _)
      subst ho
      rw [hs] at htail
      simp_all

theorem runWorkers_noFaults (reqs : List walReq) :
    ∀ (base : ObjStore), NoFaults base.script →
      (∀ o ∈ (runWorkers reqs base).1, o = none) ∧
      NoFaults (runWorkers reqs base).2.script ∧
      (runWorkers reqs base).2.log = base.log ++ reqs.map walReq.toOp ∧
      (∀ k, k ∉ reqs.map (fun r => r.key) → (runWorkers reqs base).2.data k = base.data k) ∧
      ((reqs.map (fun r => r.key)).Nodup →
        ∀ r ∈ reqs, (runWorkers reqs base).2.data r.key = r.effect) := by
  induction reqs with
  | nil => intro base h; simp [runWorkers, h]
  | cons req rest ih =>
    intro base h
    obtain ⟨hw1, hw2, hw3, hw4, hw5⟩ := worker_noFaults base req h
    obtain ⟨i1, i2, i3, i4, i5⟩ := ih (worker base req).2 hw2
    have hrun : runWorkers (req :: rest) base =
        ((worker base req).1 :: (runWorkers rest (worker base req).2).1,
          (runWorkers rest (worker base req).2).2) := by
      rw [runWorkers]
    rw [hrun]
    refine ⟨?_, i2, ?_, ?_, ?_⟩
    · intro o ho
      rcases List.mem_cons.mp ho with rfl | ho
      · exact hw1
      · exact i1 o ho
    · simp only [i3, hw3, List.map_cons, List.append_assoc, List.singleton_append]
    · intro k hk
      simp only [List.map_cons, List.mem_cons, not_or] at hk
      simp only
      rw [i4 k hk.2, hw5 k hk.1]
    · intro hnd r hr
      simp only [List.map_cons, List.nodup_cons] at hnd
      simp only
      rcases List.mem_cons.mp hr with rfl | hr
      · rw [i4 _ hnd.1, hw4]
      · exact i5 hnd.2 r hr

theorem runWorkers_length (reqs : List walReq) :
    ∀ (base : ObjStore), (runWorkers reqs base).1.length = reqs.length ∧
      (runWorkers reqs base).2.log.length = base.log.length + reqs.length := by
  induction reqs with
  | nil => intro base; simp [runWorkers]
  | cons req rest ih =>
    intro base
    have hrun : runWorkers (req :: rest) base =
        ((worker base req).1 :: (runWorkers rest (worker base req).2).1,
          (runWorkers rest (worker base req).2).2) := by
      rw [runWorkers]
    have hlog : (worker base req).2.log.length = base.log.length + 1 := by
      unfold worker ObjStore.Set ObjStore.Delete
      split <;> split <;> simp
    rw [hrun]
    refine ⟨by simp [(ih _).1], ?_⟩
    show (runWorkers rest (worker base req).2).2.log.length = _
    rw [(ih _).2, hlog, List.length_cons]
    omega

theorem collect_all_none (l : List (Option Error)) (h : ∀ o ∈ l, o = none) :
    collect none l = none := by
  induction l with
  | nil => rfl
  | cons o rest ih =>
    have ho : o = none := h o (List.mem_cons_self _ _)
    subst ho
    rw [collect]
    simpa using ih (fun o ho => h o (List.mem_cons_of_mem _ ho))

/-- The value of `err` after the collection loop is the last error received, if any. -/
theorem collect_spec (l : List (Option Error)) :
    ∀ (err : Option Error),
      (collect err l = err ∧ ∀ o ∈ l, o = none) ∨
      (∃ e, collect err l = some e ∧ some e ∈ l) := by
  induction l with
  | nil => intro err; exact Or.inl ⟨rfl, by simp⟩
  | cons o rest ih =>
    intro err
    rw [collect]
    cases o with
    | none =>
      simp only [ne_eq, not_true_eq_false, if_false]
      rcases ih err with ⟨h1, h2⟩ | ⟨e, h1, h2⟩
      · exact Or.inl ⟨h1, by simpa using h2⟩
      · exact Or.inr ⟨e, h1, List.mem_cons_of_mem _ h2⟩
    | some e0 =>
      simp only [ne_eq, reduceCtorEq, not_false_eq_true, if_true]
      rcases ih (some e0) with ⟨h1, _⟩ | ⟨e, h1, h2⟩
      · exact Or.inr ⟨e0, h1, List.mem_cons_self _ _⟩
      · exact Or.inr ⟨e, h1, List.mem_cons_of_mem _ h2⟩

theorem execDeleteIds_append (a b : List WalRow)
    (h : ((a ++ b).map (fun r => r.id)).Nodup) :
    execDeleteIds (a ++ b) (a.map (fun r => r.id)) = b := by
  rw [List.map_append, List.nodup_append] at h
  obtain ⟨_, _, hdisj⟩ := h
  unfold execDeleteIds
  rw [List.filter_append]
  have h1 : a.filter (fun r => decide (r.id ∉ a.map (fun r => r.id))) = [] := by
    rw [List.filter_eq_nil_iff]
    intro r hr
    simp only [decide_not, Bool.not_eq_true', decide_eq_false_iff_not, not_not]
    exact List.mem_map_of_mem _ hr
  have h2 : b.filter (fun r => decide (r.id ∉ a.map (fun r => r.id))) = b := by
    rw [List.filter_eq_self]
    intro r hr
    simp only [decide_eq_true_eq]
    intro hin
    exact hdisj hin (List.mem_map_of_mem _ hr)
  rw [h1, h2, List.nil_append]

theorem execDeleteIds_take (rows : List WalRow) (n : Nat)
    (h : (rows.map (fun r => r.id)).Nodup) :
    execDeleteIds rows ((rows.take n).map (fun r => r.id)) = rows.drop n := by
  have := execDeleteIds_append (rows.take n) (rows.drop n) (by rwa [List.take_append_drop])
  rwa [List.take_append_drop] at this

/-- One iteration of the loop when nothing fails: the batch is written and deleted. -/
theorem drainLoop_step_noFaults (parallelism : Int) (s : Schedule) (fuel : Nat)
    (db : LocalDB) (base : ObjStore) (hs : s.Valid) (hpar : 1 ≤ parallelism)
    (hl : NoFaults db.script) (hr : NoFaults base.script) (hne : db.rows ≠ [])
    (hids : (db.rows.map (fun r => r.id)).Nodup) :
    ∃ db2, drainLoop parallelism s (fuel + 1) db base =
        drainLoop parallelism s fuel db2
          (runWorkers (s.order ((db.rows.take 100).map WalRow.toReq)) base).2 ∧
      db2.rows = db.rows.drop 100 ∧ NoFaults db2.script := by
  obtain ⟨db1, h1, hr1, hn1⟩ := selectBatch_noFaults hl
  obtain ⟨db2, h2, hr2, hn2⟩ := call_noFaults hn1
  have hw := runWorkers_noFaults (s.order ((db.rows.take 100).map WalRow.toReq)) base hr
  have hcol : collect none
      (s.arrival (runWorkers (s.order ((db.rows.take 100).map WalRow.toReq)) base).1) = none :=
    collect_all_none _ (fun o ho => hw.1 o ((hs.2 _).mem_iff.mp ho))
  have hlen : ¬ (db.rows.take 100).length = 0 := by
    cases hrows : db.rows with
    | nil => exact absurd hrows hne
    | cons r rs => simp
  refine ⟨{ db2 with rows := execDeleteIds db2.rows ((db.rows.take 100).map (fun r => r.id)) },
    ?_, ?_, hn2⟩
  · rw [drainLoop, h1]
    simp only [hlen, if_false, not_le.mpr (by omega : (0 : Int) < parallelism)]
    rw [hcol]
    simp only [h2]
  · simp only [hr2, hr1]
    exact execDeleteIds_take db.rows 100 hids

theorem drainLoop_success (parallelism : Int) (s : Schedule) (hs : s.Valid)
    (hpar : 1 ≤ parallelism) :
    ∀ (fuel : Nat) (db : LocalDB) (base : ObjStore), db.rows.length < fuel →
      NoFaults db.script → NoFaults base.script → KeyUnique db.rows →
      (db.rows.map (fun r => r.id)).Nodup →
      ∃ db' base' ops, drainLoop parallelism s fuel db base = some (.returned none, db', base') ∧
        db'.rows = [] ∧ base'.log = base.log ++ ops ∧ ops.Perm (db.rows.map WalRow.toOp) ∧
        (∀ r ∈ db.rows, base'.data r.key = r.toReq.effect) ∧
        (∀ k, k ∉ db.rows.map (fun r => r.key) → base'.data k = base.data k) := by
  intro fuel
  induction fuel with
  | zero => intro db base h; exact absurd h (Nat.not_lt_zero _)
  | succ fuel ih =>
    intro db base hfuel hl hr hkeys hids
    by_cases hne : db.rows = []
    · obtain ⟨db1, h1, hr1, _⟩ := selectBatch_noFaults hl
      refine ⟨db1, base, [], ?_, by rw [hr1, hne], by simp, by simp [hne], by simp [hne],
        fun _ _ => rfl⟩
      rw [drainLoop, h1]
      simp [hne]
    · obtain ⟨db2, hstep, hrows2, hn2⟩ :=
        drainLoop_step_noFaults parallelism s fuel db base hs hpar hl hr hne hids
      have hw := runWorkers_noFaults (s.order ((db.rows.take 100).map WalRow.toReq)) base hr
      obtain ⟨w1, w2, w3, w4, w5⟩ := hw
      have hsplit : db.rows.take 100 ++ db.rows.drop 100 = db.rows := List.take_append_drop _ _
      have hkeys' : ((db.rows.take 100).map (fun r => r.key) ++
          (db.rows.drop 100).map (fun r => r.key)).Nodup := by
        rw [← List.map_append, hsplit]; exact hkeys
      obtain ⟨hk1, hk2, hkd⟩ := List.nodup_append.mp hkeys'
      have hids2 : (db2.rows.map (fun r => r.id)).Nodup := by
        rw [hrows2]
        exact hids.sublist ((List.drop_sublist _ _).map _)
      have hlen2 : db2.rows.length < fuel := by
        rw [hrows2, List.length_drop]
        have : 0 < db.rows.length := List.length_pos.mpr hne
        omega
      obtain ⟨db', base', ops, hd, he, hlog, hperm, hdata, hother⟩ :=
        ih db2 _ hlen2 hn2 w2 (by unfold KeyUnique; rw [hrows2]; exact hk2) hids2
      have hpermk : ((s.order ((db.rows.take 100).map WalRow.toReq)).map (fun r => r.key)).Perm
          ((db.rows.take 100).map (fun r => r.key)) := by
        have := ((hs.1 ((db.rows.take 100).map WalRow.toReq)).map (fun r : walReq => r.key))
        simpa [WalRow.toReq, Function.comp_def] using this
      refine ⟨db', base', (s.order ((db.rows.take 100).map WalRow.toReq)).map walReq.toOp ++ ops,
        hstep.trans hd, he, ?_, ?_, ?_, ?_⟩
      · rw [hlog, w3, List.append_assoc]
      · rw [← hsplit, List.map_append]
        refine List.Perm.append ?_ (by rw [← hrows2]; exact hperm)
        have := ((hs.1 ((db.rows.take 100).map WalRow.toReq)).map walReq.toOp)
        simpa [WalRow.toOp, Function.comp_def] using this
      · intro r hrmem
        rw [← hsplit] at hrmem
        rcases List.mem_append.mp hrmem with hin | hin
        · have hnot : r.key ∉ db2.rows.map (fun r => r.key) := by
            rw [hrows2]
            exact fun h => hkd (List.mem_map_of_mem (fun r => r.key) hin) h
          rw [hother _ hnot]
          have hmemreq : r.toReq ∈ s.order ((db.rows.take 100).map WalRow.toReq) :=
            (hs.1 _).mem_iff.mpr (List.mem_map_of_mem _ hin)
          exact w5 (hpermk.nodup_iff.mpr hk1) r.toReq hmemreq
        · exact hdata r (by rw [hrows2]; exact hin)
      · intro k hk
        have hk' : k ∉ (db.rows.take 100).map (fun r => r.key) ∧
            k ∉ (db.rows.drop 100).map (fun r => r.key) := by
          rw [← hsplit, List.map_append, List.mem_append, not_or] at hk
          exact hk
        rw [hother k (by rw [hrows2]; exact hk'.2)]
        exact w4 k (fun h => hk'.1 (hpermk.mem_iff.mp h))

/-- C3 (successful drain). For a table with at most one row per key (and, as the
primary key guarantees, distinct ids), `parallelism >= 1`, any valid schedule of the
workers, no `Commit` running in between and no failing local or remote call,
`drainOnce` returns `nil`, the table is empty afterwards, the remote calls issued are,
up to order, exactly one per row (`Set(key, val, dt)` for a non-empty value, `Delete(key)`
for an empty one), and the object store afterwards holds `(val, dt)` for each drained
key with a non-empty value, nothing for each drained tombstone key, and what it held
before for every other key. -/
theorem drainOnce_success (parallelism : Int) (s : Schedule) (db : LocalDB) (base : ObjStore)
    (hs : s.Valid) (hpar : 1 ≤ parallelism)
    (hlocal : NoFaults db.script) (hremote : NoFaults base.script)
    (hkeys : KeyUnique db.rows) (hids : (db.rows.map (fun r => r.id)).Nodup) :
    ∃ db' base' ops, drainOnce parallelism s db base = some (.returned none, db', base') ∧
      db'.rows = [] ∧
      base'.log = base.log ++ ops ∧ ops.Perm (db.rows.map WalRow.toOp) ∧
      (∀ r ∈ db.rows, 0 < r.val.length →
        base'.data r.key = some (r.val, r.dt) ∧ base'.Get r.key = .ok r.val) ∧
      (∀ r ∈ db.rows, r.val.length = 0 →
        base'.data r.key = none ∧ base'.Get r.key = .error Error.ErrObjectNotFound) ∧
      (∀ k, k ∉ db.rows.map (fun r => r.key) → base'.data k = base.data k) := by
  obtain ⟨db', base', ops, h1, h2, h3, h4, h5, h6⟩ :=
    drainLoop_success parallelism s hs hpar (db.rows.length + 1) db base (Nat.lt_succ_self _)
      hlocal hremote hkeys hids
  refine ⟨db', base', ops, h1, h2, h3, h4, ?_, ?_, h6⟩
  · intro r hr hv
    have := h5 r hr
    simp only [walReq.effect, WalRow.toReq, gt_iff_lt, hv, if_true] at this
    exact ⟨this, by simp [ObjStore.Get, this]⟩
  · intro r hr hv
    have := h5 r hr
    simp only [walReq.effect, WalRow.toReq, gt_iff_lt, hv, lt_self_iff_false, if_false] at this
    exact ⟨this, by simp [ObjStore.Get, this]⟩

/-- Witness of C3: a value row and a tombstone row, two workers serving the requests
in reverse order, an object store that holds an old value for the tombstone key. -/
theorem drainOnce_success_witness :
    ∃ db' base' ops,
      drainOnce 2 Schedule.lifo ⟨[⟨1, "a", [5], 1⟩, ⟨2, "b", [], 0⟩], []⟩
        ⟨fun k => if k = "b" then some ([3], 0) else none, [], []⟩
        = some (.returned none, db', base') ∧
      db'.rows = [] ∧
      base'.log = [] ++ ops ∧
      ops.Perm ([⟨1, "a", [5], 1⟩, ⟨2, "b", [], 0⟩].map WalRow.toOp) ∧
      (∀ r ∈ [(⟨1, "a", [5], 1⟩ : WalRow), ⟨2, "b", [], 0⟩], 0 < r.val.length →
        base'.data r.key = some (r.val, r.dt) ∧ base'.Get r.key = .ok r.val) ∧
      (∀ r ∈ [(⟨1, "a", [5], 1⟩ : WalRow), ⟨2, "b", [], 0⟩], r.val.length = 0 →
        base'.data r.key = none ∧ base'.Get r.key = .error Error.ErrObjectNotFound) ∧
      (∀ k, k ∉ [(⟨1, "a", [5], 1⟩ : WalRow), ⟨2, "b", [], 0⟩].map (fun r => r.key) →
        base'.data k = (fun k => if k = "b" then some (([3] : Bytes), (0 : DataType)) else none) k) :=
  drainOnce_success 2 Schedule.lifo ⟨[⟨1, "a", [5], 1⟩, ⟨2, "b", [], 0⟩], []⟩
    ⟨fun k => if k = "b" then some ([3], 0) else none, [], []⟩
    ⟨fun l => List.reverse_perm l, fun l => List.Perm.refl l⟩ (by decide)
    (fun _ h => nomatch h) (fun _ h => nomatch h) (by unfold KeyUnique; decide) (by decide)

theorem scanRows_ok (l : List WalRow) :
    ∀ (db db1 : LocalDB) (acc batch : List WalRow), scanRows l db acc = (.ok batch, db1) →
      batch = acc ++ l ∧ db1.rows = db.rows := by
  induction l with
  | nil =>
    intro db db1 acc batch h
    simp only [scanRows, Prod.mk.injEq, Except.ok.injEq] at h
    simp [← h.1, ← h.2]
  | cons r rest ih =>
    intro db db1 acc batch h
    rw [scanRows] at h
    rcases hc : db.call with ⟨o, db2⟩
    rw [hc] at h
    cases o with
    | some e => simp at h
    | none =>
      simp only at h
      obtain ⟨h1, h2⟩ := ih _ _ _ _ h
      exact ⟨by simp [h1], h2.trans (call_eq_rows hc)⟩

/-- A batch that was read is the first rows of the table, at most 100 of them, and
reading does not change the table. -/
theorem selectBatch_ok {db db1 : LocalDB} {batch : List WalRow}
    (h : selectBatch db = (.ok batch, db1)) :
    batch = db.rows.take 100 ∧ db1.rows = db.rows := by
  unfold selectBatch at h
  rcases hc : db.call with ⟨o, db2⟩
  rw [hc] at h
  cases o with
  | some e => simp at h
  | none =>
    simp only at h
    rcases hsc : scanRows (db2.rows.take 100) db2 [] with ⟨res, db3⟩
    rw [hsc] at h
    cases res with
    | error e => simp at h
    | ok b =>
      simp only at h
      rcases hc2 : db3.call with ⟨o2, db4⟩
      rw [hc2] at h
      cases o2 with
      | some e => simp at h
      | none =>
        simp only [Prod.mk.injEq, Except.ok.injEq] at h
        obtain ⟨rfl, rfl⟩ := h
        obtain ⟨h1, h2⟩ := scanRows_ok _ _ _ _ _ hsc
        have hr2 : db2.rows = db.rows := call_eq_rows hc
        exact ⟨by simp [h1, hr2], (call_eq_rows hc2).trans (h2.trans hr2)⟩

/-- C4 (failed drain keeps the batch). Take any iteration of the loop of `drainOnce`
(any state `db`, `base` and any remaining number of iterations) at which the `SELECT`
reads the batch `batch`, with `parallelism >= 1` so that workers exist, and suppose at
least one of the remote calls issued for the batch returns an error. Then one result
per row is produced and one remote call per row is issued, `drainOnce` returns a
non-nil error that is among the results of the workers, and the local handle is left
exactly as the `SELECT` left it: no `DELETE` runs, the table is the one before the
iteration and every row of the batch is still in it unchanged. -/
theorem drainOnce_failure_keeps_batch (parallelism : Int) (s : Schedule) (db db1 : LocalDB)
    (base : ObjStore) (batch : List WalRow)
    (hs : s.Valid) (hpar : 1 ≤ parallelism)
    (hread : selectBatch db = (.ok batch, db1))
    (hfail : ∃ e, some e ∈ (runWorkers (s.order (batch.map WalRow.toReq)) base).1) :
    (runWorkers (s.order (batch.map WalRow.toReq)) base).1.length = batch.length ∧
    ∃ e base',
      (∀ fuel, drainLoop parallelism s (fuel + 1) db base
        = some (.returned (some e), db1, base')) ∧
      drainOnce parallelism s db base = some (.returned (some e), db1, base') ∧
      some e ∈ (runWorkers (s.order (batch.map WalRow.toReq)) base).1 ∧
      base'.log.length = base.log.length + batch.length ∧
      db1.rows = db.rows ∧ ∀ r ∈ batch, r ∈ db1.rows := by
  obtain ⟨hb, hrows⟩ := selectBatch_ok hread
  have hlenreq : (s.order (batch.map WalRow.toReq)).length = batch.length := by
    rw [(hs.1 _).length_eq, List.length_map]
  have hlens := runWorkers_length (s.order (batch.map WalRow.toReq)) base
  rw [hlenreq] at hlens
  obtain ⟨e0, he0⟩ := hfail
  have hne : ¬ batch.length = 0 := by
    intro h0
    have : (runWorkers (s.order (batch.map WalRow.toReq)) base).1 = [] :=
      List.length_eq_zero.mp (hlens.1.trans h0)
    rw [this] at he0
    exact absurd he0 (List.not_mem_nil _)
  have hcol := collect_spec
    (s.arrival (runWorkers (s.order (batch.map WalRow.toReq)) base).1) none
  rcases hcol with ⟨_, hall⟩ | ⟨e, hce, hmem⟩
  · have := hall (some e0) ((hs.2 _).mem_iff.mpr he0)
    exact absurd this (by simp)
  · have hloop : ∀ fuel, drainLoop parallelism s (fuel + 1) db base
        = some (.returned (some e), db1,
            (runWorkers (s.order (batch.map WalRow.toReq)) base).2) := by
      intro fuel
      rw [drainLoop, hread]
      simp only [hne, if_false, not_le.mpr (by omega : (0 : Int) < parallelism)]
      rw [hce]
    refine ⟨hlens.1, e, _, hloop, hloop _, (hs.2 _).mem_iff.mp hmem, hlens.2, hrows, ?_⟩
    intro r hr
    rw [hrows]
    rw [hb] at hr
    exact List.mem_of_mem_take hr

/-- Witness of C4: two rows, one worker, the second remote call fails. -/
theorem drainOnce_failure_keeps_batch_witness :
    (runWorkers (Schedule.fifo.order
        ([(⟨1, "a", [5], 1⟩ : WalRow), ⟨2, "b", [], 0⟩].map WalRow.toReq))
        ⟨fun _ => none, [none, some (Error.other "503")], []⟩).1.length = 2 ∧
    ∃ e base',
      (∀ fuel, drainLoop 1 Schedule.fifo (fuel + 1) ⟨[⟨1, "a", [5], 1⟩, ⟨2, "b", [], 0⟩], []⟩
          ⟨fun _ => none, [none, some (Error.other "503")], []⟩
        = some (.returned (some e), ⟨[⟨1, "a", [5], 1⟩, ⟨2, "b", [], 0⟩], []⟩, base')) ∧
      drainOnce 1 Schedule.fifo ⟨[⟨1, "a", [5], 1⟩, ⟨2, "b", [], 0⟩], []⟩
          ⟨fun _ => none, [none, some (Error.other "503")], []⟩
        = some (.returned (some e), ⟨[⟨1, "a", [5], 1⟩, ⟨2, "b", [], 0⟩], []⟩, base') ∧
      some e ∈ (runWorkers (Schedule.fifo.order
        ([(⟨1, "a", [5], 1⟩ : WalRow), ⟨2, "b", [], 0⟩].map WalRow.toReq))
        ⟨fun _ => none, [none, some (Error.other "503")], []⟩).1 ∧
      base'.log.length = 0 + 2 ∧
      (⟨[⟨1, "a", [5], 1⟩, ⟨2, "b", [], 0⟩], []⟩ : LocalDB).rows
        = [⟨1, "a", [5], 1⟩, ⟨2, "b", [], 0⟩] ∧
      ∀ r ∈ [(⟨1, "a", [5], 1⟩ : WalRow), ⟨2, "b", [], 0⟩],
        r ∈ (⟨[⟨1, "a", [5], 1⟩, ⟨2, "b", [], 0⟩], []⟩ : LocalDB).rows :=
  drainOnce_failure_keeps_batch 1 Schedule.fifo ⟨[⟨1, "a", [5], 1⟩, ⟨2, "b", [], 0⟩], []⟩
    ⟨[⟨1, "a", [5], 1⟩, ⟨2, "b", [], 0⟩], []⟩
    ⟨fun _ => none, [none, some (Error.other "503")], []⟩ [⟨1, "a", [5], 1⟩, ⟨2, "b", [], 0⟩]
    ⟨fun l => List.Perm.refl l, fun l => List.Perm.refl l⟩ (by decide) rfl
    ⟨Error.other "503", by decide⟩

/-! ## Key uniqueness -/

theorem keyUnique_step (rows : List WalRow) (k : String) (v : Bytes) (dt : DataType)
    (h : KeyUnique rows) : KeyUnique (execInsert (execDeleteKey rows k) k v dt) := by
  unfold KeyUnique execInsert execDeleteKey at *
  rw [List.map_append, List.nodup_append]
  refine ⟨h.sublist ((List.filter_sublist _).map _), by simp, ?_⟩
  intro a ha hb
  simp only [List.map_cons, List.map_nil, List.mem_singleton] at hb
  subst hb
  obtain ⟨r, hr, hrk⟩ := List.mem_map.mp ha
  have := (List.mem_filter.mp hr).2
  simp only [decide_eq_true_eq] at this
  exact this hrk

theorem keyUnique_applyWrites (ws : List (String × WriteData)) :
    ∀ rows, KeyUnique rows → KeyUnique (applyWrites rows ws) := by
  induction ws with
  | nil => intro rows h; exact h
  | cons w rest ih =>
    obtain ⟨k, wr⟩ := w
    intro rows h
    rw [applyWrites]
    exact ih _ (keyUnique_step rows k wr.Data wr.Typ h)

theorem keyUnique_Commit (db : LocalDB) (ws : List (String × WriteData))
    (h : KeyUnique db.rows) : KeyUnique (Commit db ws).1.rows := by
  rcases hc : Commit db ws with ⟨db', r⟩
  have hr := Commit_rows db db' ws r hc
  cases r with
  | none => rw [hr.1 rfl]; exact keyUnique_applyWrites ws _ h
  | some e => rw [hr.2 (by simp)]; exact h

theorem scanRows_rows (l : List WalRow) :
    ∀ (db : LocalDB) (acc : List WalRow), (scanRows l db acc).2.rows = db.rows := by
  induction l with
  | nil => intro db acc; rfl
  | cons r rest ih =>
    intro db acc
    rw [scanRows]
    rcases hc : db.call with ⟨o, db1⟩
    cases o with
    | some e => exact call_eq_rows hc
    | none => exact (ih db1 _).trans (call_eq_rows hc)

theorem selectBatch_rows (db : LocalDB) : (selectBatch db).2.rows = db.rows := by
  unfold selectBatch
  rcases hc : db.call with ⟨o, db1⟩
  cases o with
  | some e => exact call_eq_rows hc
  | none =>
    simp only
    have hs := scanRows_rows (db1.rows.take 100) db1 []
    rcases hsc : scanRows (db1.rows.take 100) db1 [] with ⟨res, db2⟩
    rw [hsc] at hs
    cases res with
    | error e => exact hs.trans (call_eq_rows hc)
    | ok b =>
      simp only
      rcases hc2 : db2.call with ⟨o2, db3⟩
      cases o2 with
      | some e => exact (call_eq_rows hc2).trans (hs.trans (call_eq_rows hc))
      | none => exact (call_eq_rows hc2).trans (hs.trans (call_eq_rows hc))

/-- A pass only removes rows. -/
theorem drainLoop_sublist (parallelism : Int) (s : Schedule) :
    ∀ (fuel : Nat) (db : LocalDB) (base : ObjStore) (res : DrainResult × LocalDB × ObjStore),
      drainLoop parallelism s fuel db base = some res → res.2.1.rows.Sublist db.rows := by
  intro fuel
  induction fuel with
  | zero => intro db base res h; simp [drainLoop] at h
  | succ fuel ih =>
    intro db base res h
    rw [drainLoop] at h
    have hsel := selectBatch_rows db
    rcases hsb : selectBatch db with ⟨r, db1⟩
    rw [hsb] at h hsel
    simp only at hsel
    cases r with
    | error e =>
      simp only [Option.some.injEq] at h
      subst h
      simp [hsel]
    | ok batch =>
      simp only at h
      split at h
      · simp only [Option.some.injEq] at h
        subst h
        simp [hsel]
      · split at h
        · simp only [Option.some.injEq] at h
          subst h
          simp [hsel]
        · rcases hc : collect none
              (s.arrival (runWorkers (s.order (batch.map WalRow.toReq)) base).1) with _ | e
          · rw [hc] at h
            simp only at h
            rcases hcall : db1.call with ⟨o, db2⟩
            rw [hcall] at h
            cases o with
            | some e =>
              simp only [Option.some.injEq] at h
              subst h
              simp [call_eq_rows hcall, hsel]
            | none =>
              simp only at h
              have := ih _ _ _ h
              refine this.trans ?_
              simp only [call_eq_rows hcall, hsel, execDeleteIds]
              exact List.filter_sublist _
          · rw [hc] at h
            simp only [Option.some.injEq] at h
            subst h
            simp [hsel]

theorem keyUnique_step_event (st : LocalDB × ObjStore) (ev : Event)
    (h : KeyUnique st.1.rows) : KeyUnique (step st ev).1.rows := by
  cases ev with
  | commit ws => exact keyUnique_Commit st.1 ws h
  | drain parallelism s =>
    unfold step
    simp only
    rcases hd : drainOnce parallelism s st.1 st.2 with _ | res
    · exact h
    · have := drainLoop_sublist parallelism s _ _ _ res hd
      exact List.Nodup.sublist (this.map _) h

theorem keyUnique_run (evs : List Event) :
    ∀ st : LocalDB × ObjStore, KeyUnique st.1.rows → KeyUnique (run st evs).1.rows := by
  induction evs with
  | nil => intro st h; exact h
  | cons ev rest ih =>
    intro st h
    exact ih _ (keyUnique_step_event st ev h)

/-- C5 (key uniqueness). Starting from an empty table, after any sequence of `Commit`
calls and `drainOnce` passes, each of which may succeed or fail at any of its local or
remote calls, every key has at most one row. And whatever the table holds, after two
successful commits whose batches both contain the key `k`, the table has exactly one
row for `k`, holding the data and data type given in the second batch. -/
theorem wal_key_unique :
    (∀ (db0 : LocalDB) (base0 : ObjStore) (evs : List Event),
      db0.rows = [] → KeyUnique (run (db0, base0) evs).1.rows) ∧
    (∀ (db db1 db2 : LocalDB) (ws1 ws2 : List (String × WriteData)) (k : String)
        (wr1 wr2 : WriteData),
      (ws2.map Prod.fst).Nodup → (k, wr1) ∈ ws1 → (k, wr2) ∈ ws2 →
      Commit db ws1 = (db1, none) → Commit db1 ws2 = (db2, none) →
      ∃ id, rowsOf db2.rows k = [{ id := id, key := k, val := wr2.Data, dt := wr2.Typ }]) := by
  refine ⟨?_, ?_⟩
  · intro db0 base0 evs h0
    exact keyUnique_run evs (db0, base0) (by simp [KeyUnique, h0])
  · intro db db1 db2 ws1 ws2 k wr1 wr2 hmap _ hm2 _ hc2
    rw [(Commit_rows db1 db2 ws2 none hc2).1 rfl]
    exact rowsOf_applyWrites_mem ws2 db1.rows k wr2 hmap hm2

/-- Witness of C5: a history with a failing commit and a failing pass, and the key
`a` committed twice. -/
theorem wal_key_unique_witness :
    KeyUnique (run (⟨[], [none, none, none, none, none, none, some (Error.other "disk full")]⟩,
        ⟨fun _ => none, [some (Error.other "503")], []⟩)
      [.commit [("a", ⟨[1], 0⟩), ("b", ⟨[2], 0⟩)], .commit [("a", ⟨[3], 0⟩)],
       .drain 2 Schedule.fifo, .commit [("a", ⟨[4], 1⟩)], .drain 1 Schedule.lifo]).1.rows ∧
    ∃ id, rowsOf (⟨[⟨2, "b", [2], 0⟩, ⟨3, "a", [4], 1⟩], []⟩ : LocalDB).rows "a"
      = [{ id := id, key := "a", val := [4], dt := 1 }] :=
  ⟨wal_key_unique.1 _ _ _ rfl,
   wal_key_unique.2 ⟨[], []⟩ ⟨[⟨1, "a", [1], 0⟩, ⟨2, "b", [2], 0⟩], []⟩
     ⟨[⟨2, "b", [2], 0⟩, ⟨3, "a", [4], 1⟩], []⟩
     [("a", ⟨[1], 0⟩), ("b", ⟨[2], 0⟩)] [("a", ⟨[4], 1⟩)] "a" ⟨[1], 0⟩ ⟨[4], 1⟩
     (by decide) (by decide) (by decide) (by decide) (by decide)⟩

/-! ## Row ids and the race between `Commit` and the `DELETE` of a pass -/

/-- C2, evaluated at the failing interleaving. `Commit({a: [1]})` inserts row 1; the
pass reads the batch `[row 1]` and writes `a = [1]` to the object store; then
`Commit({a: [2]})` deletes row 1 and its insert is given id 1 again, the table being
empty (`raceBefore` is the world at that point); the `DELETE ... WHERE id in (1)` of the pass then removes the new row. The table
is empty, the object store still holds `[1]`, the only remote call ever issued is
`Set(a, [1], 0)`, and `Get(a)` answers `[1]`: the committed value `[2]` is lost. -/
theorem drain_delete_removes_unpropagated_row :
    raceBefore.db.rows = [⟨1, "a", [2], 0⟩] ∧
    raceBefore.pass = .written [⟨1, "a", [1], 0⟩] ∧
    (act raceBefore .drainDelete).db.rows = [] ∧
    (act raceBefore .drainDelete).base.log = [.Set "a" [1] 0] ∧
    (act raceBefore .drainDelete).base.data "a" = some ([1], 0) ∧
    (Get (act raceBefore .drainDelete).db (act raceBefore .drainDelete).base "a").1 = .ok [1] := by
  refine ⟨by decide, by decide, by decide, by decide, by decide, rfl⟩

/-- C9, evaluated at the failing input. The row of `k` holds `[7]`, and the `SELECT`
of `Get` fails with "database is locked". `val` is still empty when the error is
examined, so the branch `len(val) == 0` is taken before `err != nil`: `Get` returns
`ErrObjectNotFound`, and `GetMany` over `[k]` returns an empty map and no error. -/
theorem Get_masks_local_error :
    (Get ⟨[⟨1, "k", [7], 0⟩], [some (Error.other "database is locked")]⟩
        ⟨fun _ => some ([9], 0), [], []⟩ "k").1 = .error Error.ErrObjectNotFound ∧
    (GetMany ⟨[⟨1, "k", [7], 0⟩], [some (Error.other "database is locked")]⟩
        ⟨fun _ => some ([9], 0), [], []⟩ ["k"]).1 = .ok [] := by
  exact ⟨rfl, rfl⟩

/-- C10, evaluated at the failing input. On an empty table `Commit({a: [1]})` inserts a
row with id 1; a pass of `drainOnce` propagates and deletes it; `Commit({b: [2]})` then
inserts a row that again has id 1. The same happens without a pass when a commit
replaces the only row: the row of the second `Commit({a: [3]})` has id 1 as well. -/
theorem rowid_reused_after_delete :
    reuseCommitted.1.rows = [⟨1, "a", [1], 0⟩] ∧
    (run reuseCommitted [.drain 1 Schedule.fifo]).1.rows = [] ∧
    (run reuseCommitted [.drain 1 Schedule.fifo, .commit [("b", ⟨[2], 0⟩)]]).1.rows
      = [⟨1, "b", [2], 0⟩] ∧
    (run reuseCommitted [.commit [("a", ⟨[3], 0⟩)]]).1.rows = [⟨1, "a", [3], 0⟩] := by
  refine ⟨by decide, by decide, by decide, by decide⟩

/-! ## Hexadecimal keys -/

theorem digitVal_hexDigit : ∀ d, d < 16 → digitVal (hexDigit d) = d := by decide

theorem fmtHex_acc (fuel : Nat) :
    ∀ (u : Nat) (acc : List Char), fmtHex fuel u acc = fmtHex fuel u [] ++ acc := by
  induction fuel with
  | zero => intro u acc; simp [fmtHex]
  | succ fuel ih =>
    intro u acc
    rw [fmtHex, fmtHex]
    by_cases h : 16 ≤ u
    · rw [if_pos h, if_pos h, ih (u / 16) (hexDigit (u % 16) :: acc),
        ih (u / 16) [hexDigit (u % 16)], List.append_assoc]
      rfl
    · rw [if_neg h, if_neg h]
      rfl

theorem hexVal_snoc (cs : List Char) (c : Char) :
    hexVal (cs ++ [c]) = hexVal cs * 16 + digitVal c := by
  simp [hexVal, List.foldl_append]

theorem hexVal_fmtHex (fuel : Nat) :
    ∀ u, u < 16 ^ (fuel + 1) → hexVal (fmtHex fuel u []) = u := by
  induction fuel with
  | zero =>
    intro u hu
    have hu' : u < 16 := by simpa using hu
    simp [fmtHex, hexVal, digitVal_hexDigit u hu']
  | succ fuel ih =>
    intro u hu
    rw [fmtHex]
    by_cases h : 16 ≤ u
    · rw [if_pos h, fmtHex_acc, hexVal_snoc]
      have hdiv : u / 16 < 16 ^ (fuel + 1) := by
        apply Nat.div_lt_of_lt_mul
        rw [pow_succ] at hu
        omega
      rw [ih _ hdiv, digitVal_hexDigit _ (Nat.mod_lt _ (by norm_num))]
      omega
    · rw [if_neg h]
      have hu' : u < 16 := by omega
      simp [hexVal, digitVal_hexDigit u hu']

/-- Pointer to key determinism: distinct 64-bit pointers have distinct keys. -/
theorem hex_injective {p q : Nat} (hp : p < 2 ^ 64) (hq : q < 2 ^ 64) (h : hex p = hex q) :
    p = q := by
  have h16 : (2 : Nat) ^ 64 = 16 ^ (15 + 1) := by norm_num
  rw [h16] at hp hq
  have hl : fmtHex 15 p [] = fmtHex 15 q [] := by
    unfold hex at h
    exact congrArg String.data h
  rw [← hexVal_fmtHex 15 p hp, ← hexVal_fmtHex 15 q hq, hl]

/-! ## Go maps -/

theorem mapGet?_mapSet_self {K V : Type} [DecidableEq K] (m : List (K × V)) (k : K) (v : V) :
    mapGet? (mapSet m k v) k = some v := by
  induction m with
  | nil => simp [mapSet, mapGet?]
  | cons e rest ih =>
    obtain ⟨k', v'⟩ := e
    by_cases h : k' = k
    · simp [mapSet, mapGet?, h]
    · simp [mapSet, mapGet?, h, ih]

theorem mapGet?_mapSet_ne {K V : Type} [DecidableEq K] (m : List (K × V)) {k k' : K} (v : V)
    (h : k' ≠ k) : mapGet? (mapSet m k' v) k = mapGet? m k := by
  induction m with
  | nil => simp [mapSet, mapGet?, h]
  | cons e rest ih =>
    obtain ⟨k₁, v₁⟩ := e
    by_cases h1 : k₁ = k'
    · subst h1
      simp [mapSet, mapGet?, h]
    · by_cases h2 : k₁ = k
      · subst h2
        simp [mapSet, mapGet?, h1]
      · simp [mapSet, mapGet?, h1, h2, ih]

theorem mapGet?_eq_none {K V : Type} [DecidableEq K] (m : List (K × V)) (k : K) :
    mapGet? m k = none ↔ k ∉ m.map Prod.fst := by
  induction m with
  | nil => simp [mapGet?]
  | cons e rest ih =>
    obtain ⟨k', v'⟩ := e
    by_cases h : k' = k
    · simp [mapGet?, h]
    · simp [mapGet?, h, ih, Ne.symm h]

theorem mapGet?_of_mem {K V : Type} [DecidableEq K] (m : List (K × V)) (k : K) (v : V)
    (hnd : (m.map Prod.fst).Nodup) (h : (k, v) ∈ m) : mapGet? m k = some v := by
  induction m with
  | nil => simp at h
  | cons e rest ih =>
    obtain ⟨k', v'⟩ := e
    simp only [List.map_cons, List.nodup_cons] at hnd
    rcases List.mem_cons.mp h with heq | hin
    · simp only [Prod.mk.injEq] at heq
      simp [mapGet?, heq.1, heq.2]
    · have hne : k' ≠ k := by
        rintro rfl
        exact hnd.1 (List.mem_map_of_mem Prod.fst hin)
      simp [mapGet?, hne, ih hnd.2 hin]

theorem mem_of_mapGet? {K V : Type} [DecidableEq K] (m : List (K × V)) (k : K) (v : V)
    (h : mapGet? m k = some v) : (k, v) ∈ m := by
  induction m with
  | nil => simp [mapGet?] at h
  | cons e rest ih =>
    obtain ⟨k', v'⟩ := e
    by_cases hk : k' = k
    · simp only [mapGet?, hk, if_true, Option.some.injEq] at h
      simp [hk, h]
    · simp only [mapGet?, hk, if_false] at h
      exact List.mem_cons_of_mem _ (ih h)

theorem mapSet_of_not_mem {K V : Type} [DecidableEq K] (m : List (K × V)) (k : K) (v : V)
    (h : k ∉ m.map Prod.fst) : mapSet m k v = m ++ [(k, v)] := by
  induction m with
  | nil => rfl
  | cons e rest ih =>
    obtain ⟨k', v'⟩ := e
    simp only [List.map_cons, List.mem_cons, not_or] at h
    simp [mapSet, Ne.symm h.1, ih h.2]

/-! ## Encryption -/

theorem readNonce_length {rnd : Except Error Bytes} {n : Nat} {nonce : Bytes}
    (h : readNonce rnd n = .ok nonce) : nonce.length = n := by
  unfold readNonce at h
  cases rnd with
  | error e => simp at h
  | ok bs =>
    simp only [Except.ok.injEq] at h
    subst h
    simp

theorem blockMemory_Get_Set (s : blockMemory) (p : Nat) (d : Bytes) (s' : blockMemory)
    (h : blockMemory.storage.Set s p d = (none, s')) : blockMemory.storage.Get s' p = .ok d := by
  simp only [blockMemory.storage, blockMemory.Set, Prod.mk.injEq, true_and] at h
  subst h
  simp [blockMemory.storage, blockMemory.Get, mapGet?_mapSet_self]

theorem toyAEAD_Open_Seal (nonce pt ad : Bytes) (_ : nonce.length = toyAEAD.NonceSize) :
    toyAEAD.Open nonce (toyAEAD.Seal nonce pt ad) ad = .ok pt := by
  have h1 : (nonce ++ ad ++ pt).take (nonce.length + ad.length) = nonce ++ ad := by
    rw [← List.length_append]
    exact List.take_left' rfl
  have h2 : (nonce ++ ad ++ pt).drop (nonce.length + ad.length) = pt := by
    rw [← List.length_append]
    exact List.drop_left' rfl
  simp only [toyAEAD, h1, h2, if_true]

/-- C6 (encryption round trip). Over a base `BlockStorage` whose `Get` returns what a
successful `Set` stored for the same pointer, and an AEAD whose `Open` inverts `Seal`
under the same nonce (of the nonce size) and additional data: if `encryption.Set(ptr, b)`
succeeds, for any byte string `b`, the empty one included, then `encryption.Get(ptr)`
returns `b`. The value handed to the base is `nonce ++ Seal(nonce, b, hex(ptr))` with
`nonce` of the nonce size, and `Get` splits what it reads at the nonce size into that
nonce and that sealed text and opens it with the additional data `hex(ptr)`. -/
theorem encryption_roundtrip {σ : Type} (base : BlockStorage σ) (aead : AEAD)
    (rnd : Except Error Bytes) (st st' : σ) (ptr : Nat) (b : Bytes)
    (hbase : ∀ s p d s', base.Set s p d = (none, s') → base.Get s' p = .ok d)
    (haead : ∀ nonce pt ad, nonce.length = aead.NonceSize →
      aead.Open nonce (aead.Seal nonce pt ad) ad = .ok pt)
    (hset : encryption.Set base aead rnd st ptr b = (none, st')) :
    encryption.Get base aead st' ptr = .ok b ∧
    ∃ nonce, readNonce rnd aead.NonceSize = .ok nonce ∧ nonce.length = aead.NonceSize ∧
      base.Set st ptr (nonce ++ aead.Seal nonce b (hexBytes ptr)) = (none, st') ∧
      base.Get st' ptr = .ok (nonce ++ aead.Seal nonce b (hexBytes ptr)) ∧
      (nonce ++ aead.Seal nonce b (hexBytes ptr)).take aead.NonceSize = nonce ∧
      (nonce ++ aead.Seal nonce b (hexBytes ptr)).drop aead.NonceSize
        = aead.Seal nonce b (hexBytes ptr) ∧
      encryption.Get base aead st' ptr
        = aead.Open nonce (aead.Seal nonce b (hexBytes ptr)) (hexBytes ptr) := by
  unfold encryption.Set at hset
  cases hn : readNonce rnd aead.NonceSize with
  | error e =>
    rw [hn] at hset
    simp at hset
  | ok nonce =>
    rw [hn] at hset
    simp only at hset
    have hlen := readNonce_length hn
    have hget := hbase _ _ _ _ hset
    have htake : (nonce ++ aead.Seal nonce b (hexBytes ptr)).take aead.NonceSize = nonce :=
      List.take_left' hlen
    have hdrop : (nonce ++ aead.Seal nonce b (hexBytes ptr)).drop aead.NonceSize
        = aead.Seal nonce b (hexBytes ptr) := List.drop_left' hlen
    have hG : encryption.Get base aead st' ptr
        = aead.Open nonce (aead.Seal nonce b (hexBytes ptr)) (hexBytes ptr) := by
      unfold encryption.Get
      rw [hget]
      simp only
      rw [if_neg (by simp [hlen]), htake, hdrop]
    exact ⟨by rw [hG, haead _ _ _ hlen], nonce, rfl, hlen, hset, hget, htake, hdrop, hG⟩

/-- Witness of C6: the empty byte string stored at pointer `0x2a` in the in-memory
block store of `block_storage.go`. -/
theorem encryption_roundtrip_witness :
    encryption.Get blockMemory.storage toyAEAD [(0x2a, [7, 9, 7, 9, 50, 97])] 0x2a = .ok [] ∧
    ∃ nonce, readNonce (.ok [7, 9]) toyAEAD.NonceSize = .ok nonce ∧
      nonce.length = toyAEAD.NonceSize ∧
      blockMemory.storage.Set [] 0x2a (nonce ++ toyAEAD.Seal nonce [] (hexBytes 0x2a))
        = (none, [(0x2a, [7, 9, 7, 9, 50, 97])]) ∧
      blockMemory.storage.Get [(0x2a, [7, 9, 7, 9, 50, 97])] 0x2a
        = .ok (nonce ++ toyAEAD.Seal nonce [] (hexBytes 0x2a)) ∧
      (nonce ++ toyAEAD.Seal nonce [] (hexBytes 0x2a)).take toyAEAD.NonceSize = nonce ∧
      (nonce ++ toyAEAD.Seal nonce [] (hexBytes 0x2a)).drop toyAEAD.NonceSize
        = toyAEAD.Seal nonce [] (hexBytes 0x2a) ∧
      encryption.Get blockMemory.storage toyAEAD [(0x2a, [7, 9, 7, 9, 50, 97])] 0x2a
        = toyAEAD.Open nonce (toyAEAD.Seal nonce [] (hexBytes 0x2a)) (hexBytes 0x2a) :=
  encryption_roundtrip blockMemory.storage toyAEAD (.ok [7, 9]) [] [(0x2a, [7, 9, 7, 9, 50, 97])]
    0x2a [] blockMemory_Get_Set toyAEAD_Open_Seal (by decide)

/-! ## `simpleBlock.GetMany` -/

theorem conversionLoop_keys (ptrs : List Nat) :
    ∀ (keys : List String) (conv : List (String × Nat)),
      (conversionLoop ptrs keys conv).1 = keys ++ ptrs.map hex := by
  induction ptrs with
  | nil => intro keys conv; simp [conversionLoop]
  | cons p rest ih => intro keys conv; simp [conversionLoop, ih]

theorem conversionLoop_other (ptrs : List Nat) :
    ∀ (keys : List String) (conv : List (String × Nat)) (k : String), k ∉ ptrs.map hex →
      mapGet? (conversionLoop ptrs keys conv).2 k = mapGet? conv k := by
  induction ptrs with
  | nil => intro keys conv k _; rfl
  | cons p rest ih =>
    intro keys conv k hk
    simp only [List.map_cons, List.mem_cons, not_or] at hk
    rw [conversionLoop, ih _ _ k hk.2, mapGet?_mapSet_ne _ _ (Ne.symm hk.1)]

theorem conversionLoop_mem (ptrs : List Nat) (hptrs : ∀ p ∈ ptrs, p < 2 ^ 64) :
    ∀ (keys : List String) (conv : List (String × Nat)) (p : Nat), p ∈ ptrs →
      mapGet? (conversionLoop ptrs keys conv).2 (hex p) = some p := by
  induction ptrs with
  | nil => intro keys conv p hp; simp at hp
  | cons q rest ih =>
    intro keys conv p hp
    have hrest : ∀ p ∈ rest, p < 2 ^ 64 := fun p h => hptrs p (List.mem_cons_of_mem _ h)
    rw [conversionLoop]
    by_cases hin : p ∈ rest
    · exact ih hrest _ _ p hin
    · have hpq : p = q := by
        rcases List.mem_cons.mp hp with h | h
        · exact h
        · exact absurd h hin
      subst hpq
      have hnot : hex p ∉ rest.map hex := by
        intro h
        obtain ⟨r, hr, hrp⟩ := List.mem_map.mp h
        have := hex_injective (hrest r hr) (hptrs p (List.mem_cons_self _ _)) hrp
        exact hin (this ▸ hr)
      rw [conversionLoop_other rest _ _ _ hnot, mapGet?_mapSet_self]

theorem convertLoop_ok (ptrs : List Nat) (hptrs : ∀ p ∈ ptrs, p < 2 ^ 64)
    (conv : List (String × Nat)) (hconv : ∀ p ∈ ptrs, mapGet? conv (hex p) = some p) :
    ∀ (data : List (String × Bytes)) (out : List (Nat × Bytes)),
      (∀ kv ∈ data, ∃ p ∈ ptrs, hex p = kv.1) → (data.map Prod.fst).Nodup →
      (out.map Prod.fst).Nodup →
      (∀ e ∈ out, e.1 ∈ ptrs ∧ hex e.1 ∉ data.map Prod.fst) →
      ∃ out', convertLoop conv data out = .ok out' ∧
        out'.length = out.length + data.length ∧ (out'.map Prod.fst).Nodup ∧
        ∀ p v, (p, v) ∈ out' ↔ ((p, v) ∈ out ∨ (p ∈ ptrs ∧ (hex p, v) ∈ data)) := by
  intro data
  induction data with
  | nil =>
    intro out _ _ hout _
    exact ⟨out, rfl, rfl, hout, fun p v => by simp⟩
  | cons kv rest ih =>
    obtain ⟨k, v⟩ := kv
    intro out hkeys hnd hout hinv
    obtain ⟨p, hp, hpk⟩ := hkeys (k, v) (List.mem_cons_self _ _)
    simp only at hpk
    simp only [List.map_cons, List.nodup_cons] at hnd
    have hlook : mapGet? conv k = some p := hpk ▸ hconv p hp
    have hpout : p ∉ out.map Prod.fst := by
      intro h
      obtain ⟨e, he, hep⟩ := List.mem_map.mp h
      have := (hinv e he).2
      rw [hep, hpk] at this
      exact this (by simp)
    have hset : mapSet out p v = out ++ [(p, v)] := mapSet_of_not_mem out p v hpout
    have hout1 : ((out ++ [(p, v)]).map Prod.fst).Nodup := by
      rw [List.map_append, List.nodup_append]
      refine ⟨hout, by simp, ?_⟩
      intro a ha hb
      simp only [List.map_cons, List.map_nil, List.mem_singleton] at hb
      exact hpout (hb ▸ ha)
    have hinv1 : ∀ e ∈ out ++ [(p, v)], e.1 ∈ ptrs ∧ hex e.1 ∉ rest.map Prod.fst := by
      intro e he
      rcases List.mem_append.mp he with h | h
      · refine ⟨(hinv e h).1, fun hc => (hinv e h).2 ?_⟩
        simp only [List.map_cons, List.mem_cons]
        exact Or.inr hc
      · simp only [List.mem_singleton] at h
        subst h
        exact ⟨hp, by rw [hpk]; exact hnd.1⟩
    obtain ⟨out', h1, h2, h3, h4⟩ :=
      ih (out ++ [(p, v)]) (fun kv h => hkeys kv (List.mem_cons_of_mem _ h)) hnd.2 hout1 hinv1
    refine ⟨out', ?_, ?_, h3, ?_⟩
    · rw [convertLoop, hlook]
      simp only [hset]
      exact h1
    · rw [h2]
      simp only [List.length_append, List.length_cons, List.length_nil]
      omega
    · intro q w
      have e1 : (q, w) ∈ out ++ [(p, v)] ↔ ((q, w) ∈ out ∨ (q = p ∧ w = v)) := by
        rw [List.mem_append, List.mem_singleton, Prod.mk.injEq]
      have e2 : (hex q, w) ∈ (k, v) :: rest ↔ ((hex q = k ∧ w = v) ∨ (hex q, w) ∈ rest) := by
        rw [List.mem_cons, Prod.mk.injEq]
      rw [h4 q w, e1, e2]
      constructor
      · rintro ((h | ⟨hqp, hwv⟩) | ⟨hq, hm⟩)
        · exact Or.inl h
        · exact Or.inr ⟨hqp ▸ hp, Or.inl ⟨hqp ▸ hpk, hwv⟩⟩
        · exact Or.inr ⟨hq, Or.inr hm⟩
      · rintro (h | ⟨hq, ⟨hk, hwv⟩ | hm⟩)
        · exact Or.inl (Or.inl h)
        · have : q = p := hex_injective (hptrs q hq) (hptrs p hp) (hk.trans hpk.symm)
          exact Or.inl (Or.inr ⟨this, hwv⟩)
        · exact Or.inr ⟨hq, hm⟩

theorem convertLoop_error (conv : List (String × Nat)) :
    ∀ (data : List (String × Bytes)) (out : List (Nat × Bytes)),
      (∃ kv ∈ data, mapGet? conv kv.1 = none) →
      convertLoop conv data out = .error (Error.other "given value for unexpected key") := by
  intro data
  induction data with
  | nil => intro out h; simp at h
  | cons kv rest ih =>
    obtain ⟨k, v⟩ := kv
    intro out h
    rw [convertLoop]
    cases hl : mapGet? conv k with
    | none => rfl
    | some p =>
      simp only
      apply ih
      obtain ⟨kv, hkv, hnone⟩ := h
      rcases List.mem_cons.mp hkv with rfl | hin
      · simp only at hnone
        rw [hl] at hnone
        simp at hnone
      · exact ⟨kv, hin, hnone⟩

/-- C7 (`simpleBlock.GetMany` keeps the pointer-keyed shape). Let `ptrs` be 64-bit
pointers, duplicates allowed, and `data` the map (distinct keys, any iteration order)
the base returns for the keys `hex(ptr)`. If every key of `data` is the hex of a
requested pointer, `GetMany` returns a map with as many entries as `data`, with
distinct pointers as keys, in which every requested pointer `p` with `hex(p)` in `data`
is mapped to `data[hex(p)]`, and which has no other entry. If some key of `data` is
the hex of no requested pointer, `GetMany` returns the error "given value for
unexpected key" and no map. -/
theorem GetMany_pointer_shape (baseGetMany : List String → Except Error (List (String × Bytes)))
    (ptrs : List Nat) (data : List (String × Bytes))
    (hptrs : ∀ p ∈ ptrs, p < 2 ^ 64)
    (hdata : (data.map Prod.fst).Nodup)
    (hbase : baseGetMany (ptrs.map hex) = .ok data) :
    ((∀ kv ∈ data, ∃ p ∈ ptrs, hex p = kv.1) →
      ∃ out, simpleBlock.GetMany baseGetMany ptrs = .ok out ∧
        out.length = data.length ∧ (out.map Prod.fst).Nodup ∧
        (∀ p ∈ ptrs, ∀ v, mapGet? data (hex p) = some v → mapGet? out p = some v) ∧
        (∀ p v, mapGet? out p = some v → p ∈ ptrs ∧ mapGet? data (hex p) = some v)) ∧
    ((∃ kv ∈ data, ∀ p ∈ ptrs, hex p ≠ kv.1) →
      simpleBlock.GetMany baseGetMany ptrs
        = .error (Error.other "given value for unexpected key")) := by
  have hkeys : (conversionLoop ptrs [] []).1 = ptrs.map hex := by
    rw [conversionLoop_keys]; rfl
  have hG : simpleBlock.GetMany baseGetMany ptrs
      = convertLoop (conversionLoop ptrs [] []).2 data [] := by
    unfold simpleBlock.GetMany
    rcases hc : conversionLoop ptrs [] [] with ⟨keys, conv⟩
    rw [hc] at hkeys
    simp only at hkeys
    subst hkeys
    simp only [hbase]
  rw [hG]
  refine ⟨fun hall => ?_, fun hbad => ?_⟩
  · obtain ⟨out, h1, h2, h3, h4⟩ :=
      convertLoop_ok ptrs hptrs _ (fun p hp => conversionLoop_mem ptrs hptrs [] [] p hp)
        data [] hall hdata (by simp) (by simp)
    refine ⟨out, h1, by simpa using h2, h3, ?_, ?_⟩
    · intro p hp v hv
      have hm : (p, v) ∈ out := (h4 p v).mpr (Or.inr ⟨hp, mem_of_mapGet? data _ v hv⟩)
      exact mapGet?_of_mem out p v h3 hm
    · intro p v hv
      have hm := (h4 p v).mp (mem_of_mapGet? out p v hv)
      rcases hm with h | ⟨hp, hd⟩
      · simp at h
      · exact ⟨hp, mapGet?_of_mem data _ v hdata hd⟩
  · obtain ⟨kv, hkv, hno⟩ := hbad
    apply convertLoop_error
    refine ⟨kv, hkv, ?_⟩
    rw [conversionLoop_other ptrs [] [] kv.1 ?_]
    · rfl
    · intro hmem
      obtain ⟨p, hp, hpk⟩ := List.mem_map.mp hmem
      exact hno p hp hpk

/-- Witness of C7: pointer `0x10` requested twice and `0x2a` once, the base answering
for both keys; and the base answering with the key `ff` that was not requested. -/
theorem GetMany_pointer_shape_witness :
    (∃ out, simpleBlock.GetMany (fun _ => .ok [("2a", [1]), ("10", [2])]) [0x10, 0x2a, 0x10]
        = .ok out ∧
      out.length = [("2a", ([1] : Bytes)), ("10", [2])].length ∧ (out.map Prod.fst).Nodup ∧
      (∀ p ∈ [0x10, 0x2a, 0x10], ∀ v,
        mapGet? [("2a", ([1] : Bytes)), ("10", [2])] (hex p) = some v → mapGet? out p = some v) ∧
      (∀ p v, mapGet? out p = some v →
        p ∈ [0x10, 0x2a, 0x10] ∧ mapGet? [("2a", ([1] : Bytes)), ("10", [2])] (hex p) = some v)) ∧
    simpleBlock.GetMany (fun _ => .ok [("2a", [1]), ("ff", [2])]) [0x10, 0x2a]
      = .error (Error.other "given value for unexpected key") :=
  ⟨(GetMany_pointer_shape (fun _ => .ok [("2a", [1]), ("10", [2])]) [0x10, 0x2a, 0x10]
      [("2a", [1]), ("10", [2])] (by decide) (by decide) rfl).1 (by decide),
   (GetMany_pointer_shape (fun _ => .ok [("2a", [1]), ("ff", [2])]) [0x10, 0x2a]
      [("2a", [1]), ("ff", [2])] (by decide) (by decide) rfl).2 (by decide)⟩

/-! ## Backpressure -/

theorem count_ok {st : WalState} {lw1 : localWAL} {db1 : LocalDB} {now later : Time} {c : Int}
    (h : count st.lw st.db now later = (.ok c, lw1, db1)) :
    c = reportedCount st now := by
  unfold count at h
  unfold reportedCount
  by_cases hf : since now st.lw.lastCount < tenSeconds
  · rw [if_pos hf] at h
    simp only [Prod.mk.injEq, Except.ok.injEq] at h
    simp only [hf, if_true]
    exact h.1.symm
  · rw [if_neg hf] at h
    rcases hc : st.db.call with ⟨o, db2⟩
    rw [hc] at h
    cases o with
    | some e => simp at h
    | none =>
      simp only [Prod.mk.injEq, Except.ok.injEq] at h
      simp only [hf, if_false]
      rw [← h.1, call_eq_rows hc]

theorem Start_success_aux (prefetch : List String) (rounds : List Round) :
    ∀ (st st' : WalState) (m : List (String × Bytes)),
      Start prefetch rounds st = (some (.ok m), st') →
      ∃ pre r post sti, rounds = pre ++ r :: post ∧ Start prefetch pre st = (none, sti) ∧
        reportedCount (r.interfere sti) r.now ≤ (r.interfere sti).lw.maxSize ∧
        (GetMany (count (r.interfere sti).lw (r.interfere sti).db r.now r.later).2.2
          (r.interfere sti).base prefetch).1 = .ok m := by
  induction rounds with
  | nil => intro st st' m h; simp [Start] at h
  | cons r rest ih =>
    intro st st' m h
    rw [Start] at h
    rcases hc : count (r.interfere st).lw (r.interfere st).db r.now r.later with ⟨res, lw1, db1⟩
    rw [hc] at h
    cases res with
    | error e => simp at h
    | ok c =>
      simp only at h
      have hrep := count_ok hc
      by_cases hgt : c > (r.interfere st).lw.maxSize
      · rw [if_pos hgt] at h
        have hwait : Start prefetch (r :: rest) st
            = Start prefetch rest { r.interfere st with lw := lw1, db := db1 } ∧
            Start prefetch [r] st = (none, { r.interfere st with lw := lw1, db := db1 }) := by
          rw [Start, Start, hc]
          simp only [if_pos hgt]
          cases hsel : r.sel with
          | done e => rw [hsel] at h; simp at h
          | wake => simp [Start]
          | tick => simp [Start]
        have h' : Start prefetch rest { r.interfere st with lw := lw1, db := db1 }
            = (some (.ok m), st') := by
          rw [← hwait.1, Start, hc]
          simp only [if_pos hgt]
          exact h
        obtain ⟨pre, r', post, sti, e1, e2, e3, e4⟩ := ih _ _ _ h'
        refine ⟨r :: pre, r', post, sti, by rw [e1]; rfl, ?_, e3, e4⟩
        rw [Start, hc]
        simp only [if_pos hgt]
        cases hsel : r.sel with
        | done e => rw [hsel] at h; simp at h
        | wake => exact e2
        | tick => exact e2
      · rw [if_neg hgt] at h
        refine ⟨[], r, rest, st, rfl, rfl, ?_, ?_⟩
        · rw [← hrep]
          exact not_lt.mp hgt
        · rw [hc]
          exact Option.some.inj (Prod.mk.inj h).1

set_option maxRecDepth 100000 in
/-- C8, the claim as stated fails. A session starts at second 100 on an empty WAL with
`maxSize = 1`, which caches the size 0; it commits three rows (`secondSession` is
the state then); a second `Start` at second 105 finds the cache five seconds old, so `count` reports 0 and `Start` returns
successfully at its first iteration although the table holds three rows. -/
theorem Start_returns_while_over_maxSize :
    (secondSession.db.rows.length : Int) > secondSession.lw.maxSize ∧
    (Start ["a"] [quietRound 105 .tick] secondSession).1 = some (.ok [("a", [1])]) ∧
    (Start ["a"] [quietRound 105 .tick] secondSession).2.db.rows.length = 3 := by
  refine ⟨by decide, rfl, by decide⟩

/-- C8 as amended. `Start` returns successfully only at an iteration at which the
number reported by `count` is at most `maxSize`, all earlier iterations having waited;
what it returns then is the result of `GetMany(prefetch)`. `count` reports the number
of rows only when the cached count is at least ten seconds old, and then the table
holds at most `maxSize` rows at that iteration; otherwise it reports the cached size. -/
theorem Start_gate (prefetch : List String) (rounds : List Round) (st st' : WalState)
    (m : List (String × Bytes))
    (h : Start prefetch rounds st = (some (.ok m), st')) :
    ∃ pre r post sti, rounds = pre ++ r :: post ∧ Start prefetch pre st = (none, sti) ∧
      reportedCount (r.interfere sti) r.now ≤ (r.interfere sti).lw.maxSize ∧
      (tenSeconds ≤ since r.now (r.interfere sti).lw.lastCount →
        ((r.interfere sti).db.rows.length : Int) ≤ (r.interfere sti).lw.maxSize) ∧
      (since r.now (r.interfere sti).lw.lastCount < tenSeconds →
        (r.interfere sti).lw.currSize ≤ (r.interfere sti).lw.maxSize) ∧
      (GetMany (count (r.interfere sti).lw (r.interfere sti).db r.now r.later).2.2
        (r.interfere sti).base prefetch).1 = .ok m := by
  obtain ⟨pre, r, post, sti, e1, e2, e3, e4⟩ := Start_success_aux prefetch rounds st st' m h
  refine ⟨pre, r, post, sti, e1, e2, e3, ?_, ?_, e4⟩
  · intro hstale
    unfold reportedCount at e3
    rwa [if_neg (not_lt.mpr hstale)] at e3
  · intro hfresh
    unfold reportedCount at e3
    rwa [if_pos hfresh] at e3

/-- Witness of C8 as amended: three rows with `maxSize = 1` and a stale cache; the
first iteration waits, the drainer empties the table, and the iteration at second 111
returns. -/
theorem Start_gate_witness :
    ∃ pre r post sti,
      [quietRound 100 .wake, { quietRound 111 .tick with interfere := drained }]
        = pre ++ r :: post ∧
      Start [] pre fullState = (none, sti) ∧
      reportedCount (r.interfere sti) r.now ≤ (r.interfere sti).lw.maxSize ∧
      (tenSeconds ≤ since r.now (r.interfere sti).lw.lastCount →
        ((r.interfere sti).db.rows.length : Int) ≤ (r.interfere sti).lw.maxSize) ∧
      (since r.now (r.interfere sti).lw.lastCount < tenSeconds →
        (r.interfere sti).lw.currSize ≤ (r.interfere sti).lw.maxSize) ∧
      (GetMany (count (r.interfere sti).lw (r.interfere sti).db r.now r.later).2.2
        (r.interfere sti).base []).1 = .ok [] :=
  Start_gate [] [quietRound 100 .wake, { quietRound 111 .tick with interfere := drained }]
    fullState
    { lw := { maxSize := 1, currSize := 0, lastCount := 111 * 1000000000 }
      db := { rows := [], script := [] }
      base := { data := fun _ => none, script := [], log := [] } } [] rfl

/-! ## Termination of `drainOnce` and the ids SQLite assigns -/

theorem execDeleteIds_length_lt (rows : List WalRow) (n : Nat) (hn : 0 < n) (hne : rows ≠ []) :
    (execDeleteIds rows ((rows.take n).map (fun r => r.id))).length < rows.length := by
  cases rows with
  | nil => exact absurd rfl hne
  | cons r rs =>
    obtain ⟨k, rfl⟩ : ∃ k, n = k + 1 := ⟨n - 1, by omega⟩
    unfold execDeleteIds
    simp only [List.take_succ_cons, List.map_cons, List.mem_cons, true_or, not_true_eq_false,
      decide_False, Bool.false_eq_true, not_false_eq_true, List.filter_cons_of_neg,
      List.length_cons]
    exact Nat.lt_succ_of_le (List.length_filter_le _ _)

/-- The loop of `drainOnce` ends: with more iterations allowed than there are rows,
the embedding always yields a result, `returned` or `blocked`. -/
theorem drainLoop_total (parallelism : Int) (s : Schedule) :
    ∀ (fuel : Nat) (db : LocalDB) (base : ObjStore), db.rows.length < fuel →
      ∃ res, drainLoop parallelism s fuel db base = some res := by
  intro fuel
  induction fuel with
  | zero => intro db base h; exact absurd h (Nat.not_lt_zero _)
  | succ fuel ih =>
    intro db base hfuel
    rw [drainLoop]
    rcases hsb : selectBatch db with ⟨r, db1⟩
    cases r with
    | error e => exact ⟨_, rfl⟩
    | ok batch =>
      obtain ⟨hb, hrows⟩ := selectBatch_ok hsb
      simp only
      split
      · exact ⟨_, rfl⟩
      · rename_i hlen
        split
        · exact ⟨_, rfl⟩
        · cases collect none
              (s.arrival (runWorkers (s.order (batch.map WalRow.toReq)) base).1) with
          | some e => exact ⟨_, rfl⟩
          | none =>
            simp only
            rcases hcall : db1.call with ⟨o, db2⟩
            cases o with
            | some e => exact ⟨_, rfl⟩
            | none =>
              simp only
              apply ih
              have hne : db.rows ≠ [] := by
                intro h0
                rw [hb, h0] at hlen
                exact hlen rfl
              have := execDeleteIds_length_lt db.rows 100 (by norm_num) hne
              simp only [call_eq_rows hcall, hrows, hb]
              omega

theorem drainOnce_total (parallelism : Int) (s : Schedule) (db : LocalDB) (base : ObjStore) :
    ∃ res, drainOnce parallelism s db base = some res :=
  drainLoop_total parallelism s _ db base (Nat.lt_succ_self _)

theorem maxId_ge (rows : List WalRow) :
    ∀ r ∈ rows, ∃ m, maxId rows = some m ∧ r.id ≤ m := by
  induction rows with
  | nil => intro r hr; simp at hr
  | cons r0 rs ih =>
    intro r hr
    rw [maxId]
    cases hm : maxId rs with
    | none =>
      rcases List.mem_cons.mp hr with rfl | hin
      · exact ⟨_, rfl, le_refl _⟩
      · obtain ⟨m, hm', _⟩ := ih r hin
        rw [hm] at hm'
        simp at hm'
    | some m =>
      refine ⟨max r0.id m, rfl, ?_⟩
      rcases List.mem_cons.mp hr with rfl | hin
      · exact le_max_left _ _
      · obtain ⟨m', hm', hle⟩ := ih r hin
        rw [hm] at hm'
        simp only [Option.some.injEq] at hm'
        subst hm'
        exact le_trans hle (le_max_right _ _)

/-- What does hold of the ids: an inserted row gets an id larger than the id of every
row that is in the table at that moment. -/
theorem nextId_gt (rows : List WalRow) : ∀ r ∈ rows, r.id < nextId rows := by
  intro r hr
  obtain ⟨m, hm, hle⟩ := maxId_ge rows r hr
  unfold nextId
  rw [hm]
  simp only
  omega

/-- The three stages of `act` are those of one iteration of `drainOnce`: when, from
an idle pass, the select and write stages end with the batch written and the `DELETE`
statement does not fail, an iteration of the loop continues from the state the three
stages produce. -/
theorem drainLoop_eq_stages (parallelism : Int) (s : Schedule) (fuel : Nat) (db : LocalDB)
    (base : ObjStore) (batch : List WalRow) (hpar : 1 ≤ parallelism)
    (hw : (interleave ⟨db, base, .idle⟩ [.drainSelect, .drainWrite s]).pass = .written batch)
    (hd : (interleave ⟨db, base, .idle⟩ [.drainSelect, .drainWrite s]).db.call.1 = none) :
    drainLoop parallelism s (fuel + 1) db base =
      drainLoop parallelism s fuel
        (interleave ⟨db, base, .idle⟩ [.drainSelect, .drainWrite s, .drainDelete]).db
        (interleave ⟨db, base, .idle⟩ [.drainSelect, .drainWrite s, .drainDelete]).base := by
  have hi2 : interleave ⟨db, base, .idle⟩ [.drainSelect, .drainWrite s]
      = act (act ⟨db, base, .idle⟩ .drainSelect) (.drainWrite s) := rfl
  have hi3 : interleave ⟨db, base, .idle⟩ [.drainSelect, .drainWrite s, .drainDelete]
      = act (act (act ⟨db, base, .idle⟩ .drainSelect) (.drainWrite s)) .drainDelete := rfl
  rw [hi2] at hw hd
  rw [hi3, drainLoop]
  rcases hsb : selectBatch db with ⟨r, db1⟩
  cases r with
  | error e =>
    have e1 : act ⟨db, base, .idle⟩ .drainSelect = ⟨db1, base, .idle⟩ := by
      simp only [act, hsb]
    rw [e1] at hw
    simp [act] at hw
  | ok b =>
    by_cases hlen : b.length = 0
    · have e1 : act ⟨db, base, .idle⟩ .drainSelect = ⟨db1, base, .idle⟩ := by
        simp only [act, hsb, hlen, if_true]
      rw [e1] at hw
      simp [act] at hw
    · have e1 : act ⟨db, base, .idle⟩ .drainSelect = ⟨db1, base, .read b⟩ := by
        simp only [act, hsb, hlen, if_false]
      rw [e1] at hw hd ⊢
      cases hcol : collect none
          (s.arrival (runWorkers (s.order (b.map WalRow.toReq)) base).1) with
      | some e =>
        have e2 : act ⟨db1, base, .read b⟩ (.drainWrite s)
            = ⟨db1, (runWorkers (s.order (b.map WalRow.toReq)) base).2, .idle⟩ := by
          simp only [act, hcol]
        rw [e2] at hw
        simp at hw
      | none =>
        have e2 : act ⟨db1, base, .read b⟩ (.drainWrite s)
            = ⟨db1, (runWorkers (s.order (b.map WalRow.toReq)) base).2, .written b⟩ := by
          simp only [act, hcol]
        rw [e2] at hw hd ⊢
        simp only at hd
        rcases hcall : db1.call with ⟨o, db2⟩
        rw [hcall] at hd
        simp only at hd
        subst hd
        have e3 : act ⟨db1, (runWorkers (s.order (b.map WalRow.toReq)) base).2, .written b⟩
            .drainDelete
            = ⟨{ db2 with rows := execDeleteIds db2.rows (b.map (fun r => r.id)) },
                (runWorkers (s.order (b.map WalRow.toReq)) base).2, .idle⟩ := by
          simp only [act, hcall]
        rw [e3]
        simp only [hlen, if_false, not_le.mpr (by omega : (0 : Int) < parallelism), hcol, hcall]

end Persistent
